import Mathlib

/-!
# Verification of the discrete HMM implementation (`hmm.py`)

This file gives a shallow embedding of `hmm.py` (a Python 2 hidden Markov
model library: scoring, trellis/Viterbi, supervised training) and proves or
refutes the specification claims about it.

Embedding conventions:

* Probabilities are exact rationals (`ℚ`).  The Python code works with the
  float `math.log10 p` of each probability `p` and combines values with `+`
  and compares them with `>`.  Since `log10` is strictly monotone, sums of
  logs correspond exactly to products of the underlying probabilities and
  the comparisons agree.  The embedding therefore stores, wherever the
  Python code stores the float `log10 p`, the probability `p` itself; a
  Python `p += math.log10 q` becomes `p := p * q`, and `math.log10` raising
  `ValueError` on a non-positive argument becomes an explicit error result.
  The bridge to the log world is made explicit in the theorems via
  `Real.logb 10`.
* Python dictionaries become association lists (`List (String × α)`) in
  insertion order, with lookup (`alookup`) returning the first matching
  key; Python dictionaries built by the code have unique keys, so the order
  of duplicate keys never matters for faithfulness.
* A raised Python exception (`ValueError` from `math.log10`, `TypeError`
  from `None + float`, `IndexError`, `KeyError`, `ValueError` from `max`
  on an empty sequence, `ZeroDivisionError`) is modelled as an explicit
  `error` result value.
* Python 2's `max(d, key=d.get)` over a dict with `None`s uses the
  ordering in which `None` is below every number and returns the first
  maximal key; the embedding fixes insertion order as the iteration order.
-/

set_option maxHeartbeats 1600000
set_option linter.unreachableTactic false
set_option linter.unusedTactic false
set_option linter.unnecessarySeqFocus false

namespace HMM

/-- One hidden state of the model (mirrors class `state` in `hmm.py`). -/
structure state where
  name : String
  p_initial : ℚ
  p_emission : List (String × ℚ)
  p_transition : List (String × ℚ)
  p_termination : ℚ
deriving DecidableEq

/-- Association-list lookup, mirroring Python dict lookup
(`d[k]`, and `k in d.keys()` = `(alookup d k).isSome`). -/
def alookup {α : Type} : List (String × α) → String → Option α
  | [], _ => none
  | (k, v) :: rest, key => if k = key then some v else alookup rest key

/-- Python `elem in list` on a list of strings. -/
def elemStr (s : String) : List String → Bool
  | [] => false
  | x :: rest => if x = s then true else elemStr s rest

/-- The model object (mirrors class `hmm` in `hmm.py`). -/
structure hmm where
  alphabet : List String
  terminal_state : Bool
  initial_states : List String
  terminating_states : List String
  states : List (String × state)
deriving DecidableEq

/-- Python dict insertion: overwrite in place, or append a fresh key. -/
def dictInsert {α : Type} : List (String × α) → String → α → List (String × α)
  | [], k, v => [(k, v)]
  | (k', v') :: rest, k, v =>
    if k' = k then (k, v) :: rest else (k', v') :: dictInsert rest k v

/-- One iteration of the loop in `hmm.__init__`. -/
def hmmStep (m : hmm) (st : state) : hmm :=
  { m with
    states := dictInsert m.states st.name st
    initial_states :=
      if 0 < st.p_initial then m.initial_states ++ [st.name]
      else m.initial_states
    terminal_state :=
      if 0 < st.p_termination then true else m.terminal_state
    terminating_states :=
      if 0 < st.p_termination then m.terminating_states ++ [st.name]
      else m.terminating_states }

/-- `hmm.__init__`: store the states keyed by name, and derive
`initial_states`, `terminal_state`, `terminating_states` from the
`p_initial > 0.0` / `p_termination > 0.0` tests. -/
def mkHmm (alphabet : List String) (sts : List state) : hmm :=
  sts.foldl hmmStep
    { alphabet := alphabet, terminal_state := false, initial_states := [],
      terminating_states := [], states := [] }

/-- Result of `hmm.score`.  `val p` stands for the Python float `log10 p`
(see the header: score values are carried as probability products);
`invalid` is Python's `None` return; `error` models a raised exception. -/
inductive ScoreResult where
  | val : ℚ → ScoreResult
  | invalid : ScoreResult
  | error : ScoreResult
deriving DecidableEq

/-- The `i > 0` iterations of the loop in `hmm.score`: transition
membership test, `math.log10` of the transition probability (raises on a
value `≤ 0`, which is why a key present with value `0.0` is an `error`,
not `invalid`), then the emission membership / zero tests and
`math.log10` of the emission probability.  `acc` carries the product of
the factors accepted so far; running out of observation symbols is the
`IndexError` from `seq_observed[i]`. -/
def scoreRest (m : hmm) (prev : state) (acc : ℚ) :
    List String → List String → ScoreResult
  | [], _ => .val acc
  | s :: ss, os =>
    match alookup m.states s with
    | none => .error
    | some st =>
      match alookup prev.p_transition s with
      | none => .invalid
      | some t =>
        if t ≤ 0 then .error
        else
          match os with
          | [] => .error
          | o :: os2 =>
            match alookup st.p_emission o with
            | none => .invalid
            | some e =>
              if e = 0 then .invalid
              else if e < 0 then .error
              else scoreRest m st (acc * t * e) ss os2

/-- The `i = 0` iteration of the loop in `hmm.score` (initial-probability
zero test, `math.log10 p_initial`, emission tests), followed by
`scoreRest` for the remaining positions.  An empty state sequence skips
the loop and returns the accumulator (probability `1`, i.e. the float
`0.0`). -/
def scoreBody (m : hmm) : List String → List String → ScoreResult
  | [], _ => .val 1
  | s :: ss, os =>
    match alookup m.states s with
    | none => .error
    | some st =>
      if st.p_initial = 0 then .invalid
      else if st.p_initial < 0 then .error
      else
        match os with
        | [] => .error
        | o :: os2 =>
          match alookup st.p_emission o with
          | none => .invalid
          | some e =>
            if e = 0 then .invalid
            else if e < 0 then .error
            else scoreRest m st (st.p_initial * e) ss os2

/-- `hmm.score`.  The terminal-state gate reads `seq_state[-1]`
(an `IndexError` on an empty sequence) and returns `None` when the last
state is not a terminating state; the termination probability itself is
never multiplied in. -/
def score (m : hmm) (seq_state seq_observed : List String) : ScoreResult :=
  if m.terminal_state then
    match seq_state.getLast? with
    | none => .error
    | some last =>
      if elemStr last m.terminating_states then
        scoreBody m seq_state seq_observed
      else .invalid
  else scoreBody m seq_state seq_observed

/-! ## Trellis and Viterbi (`hmm.trellis`, `hmm.viterbi_path`) -/

/-- One trellis column: a Python dict from state name to cell value, in the
iteration order of `self.states.keys()`.  `none` is the Python `None`
cell ("no valid path ends here"). -/
abbrev Column := List (String × Option ℚ)

/-- Column-0 cell (`hmm.trellis`, `i == 0` branch): `None` when
`p_init == 0.0 or p_emit == 0.0`, otherwise
`log10 p_init + log10 p_emit`, i.e. the product `p_init * p_emit`;
`math.log10` of a negative argument is an error.  `p_emit` is
`hmm._p_emit` on a state known to be in the dict: an absent emission key
reads as `0.0`. -/
def firstCell (st : state) (o : String) : Except Unit (Option ℚ) :=
  let p_emit := (alookup st.p_emission o).getD 0
  if st.p_initial = 0 ∨ p_emit = 0 then .ok none
  else if st.p_initial < 0 ∨ p_emit < 0 then .error ()
  else .ok (some (st.p_initial * p_emit))

/-- One candidate of the inner loop of the `i > 0` branch of
`hmm.trellis`: skip `None` predecessor cells, require
`hmm._connected` (transition key present with positive value), and
produce `prev_prob + log10 p_emit + log10 p_tran`, i.e.
`v * p_emit * t`. -/
def transCand (m : hmm) (to_state : String) (pe : ℚ)
    (p : String × Option ℚ) : Option ℚ :=
  match p.2 with
  | none => none
  | some v =>
    match alookup m.states p.1 with
    | none => none
    | some pst =>
      match alookup pst.p_transition to_state with
      | none => none
      | some t => if 0 < t then some (v * pe * t) else none

/-- Python's running maximum `best = s if best is None or s > best`. -/
def foldBest (c : ℚ) : List ℚ → ℚ
  | [] => c
  | x :: rest => foldBest (if c < x then x else c) rest

/-- The inner loop of the `i > 0` branch: collect the candidate values
over the prior column, in column order. -/
def candList (m : hmm) (to_state : String) (pe : ℚ) : Column → List ℚ
  | [] => []
  | p :: rest =>
    match transCand m to_state pe p with
    | none => candList m to_state pe rest
    | some v => v :: candList m to_state pe rest

/-- Column-`i` cell for `i > 0` (`hmm.trellis`): `None` when the emission
probability is zero or no admissible predecessor exists; otherwise the
maximum over the candidates.  When at least one candidate exists,
`math.log10 p_emit` is evaluated, so a negative emission probability is
an error exactly in that case. -/
def nextCell (m : hmm) (prior : Column) (s : String) (st : state)
    (o : String) : Except Unit (Option ℚ) :=
  let pe := (alookup st.p_emission o).getD 0
  if pe = 0 then .ok none
  else
    match candList m s pe prior with
    | [] => .ok none
    | c :: cs => if pe < 0 then .error () else .ok (some (foldBest c cs))

/-- Build a column by iterating over `self.states` in key order.  (The
Python code iterates `state_names = self.states.keys()` and looks each
name up again in the dict; since dict keys are unique, that lookup
returns exactly the paired record.) -/
def buildCol (f : String → state → Except Unit (Option ℚ)) :
    List (String × state) → Except Unit Column
  | [] => .ok []
  | (n, st) :: rest =>
    match f n st with
    | .error e => .error e
    | .ok c =>
      match buildCol f rest with
      | .error e => .error e
      | .ok cs => .ok ((n, c) :: cs)

def firstColumn (m : hmm) (o : String) : Except Unit Column :=
  buildCol (fun _ st => firstCell st o) m.states

def nextColumn (m : hmm) (prior : Column) (o : String) : Except Unit Column :=
  buildCol (fun n st => nextCell m prior n st o) m.states

/-- Last-column terminal adjustment of one cell (`hmm.trellis`,
`i == len(observed)-1` branch with `terminal_state` set):
non-terminating states are forced to `None`; terminating states get
`probs[s] += math.log10(p_termination)`, which is a `TypeError` when
`probs[s]` is `None` and a `ValueError` when the termination probability
is not positive. -/
def adjustCell (m : hmm) (n : String) (c : Option ℚ) : Except Unit (Option ℚ) :=
  if elemStr n m.terminating_states then
    match c with
    | none => .error ()
    | some v =>
      match alookup m.states n with
      | none => .error ()
      | some st =>
        if st.p_termination ≤ 0 then .error ()
        else .ok (some (v * st.p_termination))
  else .ok none

def adjustLast (m : hmm) : Column → Except Unit Column
  | [] => .ok []
  | (n, c) :: rest =>
    match adjustCell m n c with
    | .error e => .error e
    | .ok c2 =>
      match adjustLast m rest with
      | .error e => .error e
      | .ok cs => .ok ((n, c2) :: cs)

/-- Columns `1..L-1` of `hmm.trellis`, given the previous column; the
terminal adjustment fires on the last column only. -/
def trellisFrom (m : hmm) (prior : Column) : List String → Except Unit (List Column)
  | [] => .ok []
  | o :: rest =>
    match nextColumn m prior o with
    | .error e => .error e
    | .ok raw =>
      match (if rest.isEmpty && m.terminal_state then adjustLast m raw else .ok raw) with
      | .error e => .error e
      | .ok col =>
        match trellisFrom m col rest with
        | .error e => .error e
        | .ok more => .ok (col :: more)

/-- `hmm.trellis`. -/
def trellis (m : hmm) : List String → Except Unit (List Column)
  | [] => .ok []
  | o :: rest =>
    match firstColumn m o with
    | .error e => .error e
    | .ok raw =>
      match (if rest.isEmpty && m.terminal_state then adjustLast m raw else .ok raw) with
      | .error e => .error e
      | .ok col =>
        match trellisFrom m col rest with
        | .error e => .error e
        | .ok more => .ok (col :: more)

/-- The trellis without the last-column terminal adjustment ("the ordinary
column rule" used to state the last-column claim). -/
def trellisRawFrom (m : hmm) (prior : Column) : List String → Except Unit (List Column)
  | [] => .ok []
  | o :: rest =>
    match nextColumn m prior o with
    | .error e => .error e
    | .ok col =>
      match trellisRawFrom m col rest with
      | .error e => .error e
      | .ok more => .ok (col :: more)

def trellisRaw (m : hmm) : List String → Except Unit (List Column)
  | [] => .ok []
  | o :: rest =>
    match firstColumn m o with
    | .error e => .error e
    | .ok col =>
      match trellisRawFrom m col rest with
      | .error e => .error e
      | .ok more => .ok (col :: more)

/-- Python 2's `>` on optional floats: `None` is below every number. -/
def gtOpt (a b : Option ℚ) : Bool :=
  match a, b with
  | some x, some y => if y < x then true else false
  | some _, none => true
  | none, _ => false

/-- Python's `max` scan: keep the current best, replace it when a later
entry is strictly larger. -/
def pickBest (best : String × Option ℚ) : Column → String × Option ℚ
  | [] => best
  | cur :: rest => pickBest (if gtOpt cur.2 best.2 then cur else best) rest

/-- `max(probs, key=probs.get)` over a column: `ValueError` on an empty
dict, otherwise the first entry with the maximal value. -/
def pickMax : Column → Except Unit (String × Option ℚ)
  | [] => .error ()
  | e :: rest => .ok (pickBest e rest)

/-- `hmm._connected`. -/
def _connected (m : hmm) (from_state to_state : String) : Bool :=
  match alookup m.states from_state with
  | none => false
  | some st =>
    match alookup st.p_transition to_state with
    | none => false
    | some v => if 0 < v then true else false

/-- The `del` filter of the backtracking loop in `hmm.viterbi_path`:
keep the states with a non-`None` cell that are connected to the
already-chosen next state. -/
def keepEntry (m : hmm) (next : String) (e : String × Option ℚ) : Bool :=
  match e.2 with
  | none => false
  | some _ => _connected m e.1 next

/-- The `del` loop over one column. -/
def filterCol (m : hmm) (next : String) : Column → Column
  | [] => []
  | e :: rest =>
    if keepEntry m next e then e :: filterCol m next rest
    else filterCol m next rest

/-- The backtracking loop of `hmm.viterbi_path`, walking the columns
`trellis[len-2], ..., trellis[0]` and appending each chosen state to the
(backwards) `state_seq` accumulator. -/
def backLoop (m : hmm) : List Column → String → List String → Except Unit (List String)
  | [], _, acc => .ok acc
  | probs :: earlier, next, acc =>
    match pickMax (filterCol m next probs) with
    | .error e => .error e
    | .ok (n, _) => backLoop m earlier n (acc ++ [n])

/-- `trellis[-1]`. -/
def lastCol : List Column → Option Column
  | [] => none
  | c :: rest =>
    match rest with
    | [] => some c
    | _ :: _ => lastCol rest

/-- The columns `trellis[len-2], ..., trellis[0]`, in that (reversed)
order, matching `reversed(range(len(trellis)-1))`. -/
def butLastRev : List Column → List Column
  | [] => []
  | c :: rest =>
    match rest with
    | [] => []
    | _ :: _ => butLastRev rest ++ [c]

/-- `hmm.viterbi_path`. -/
def viterbi_path (m : hmm) (observed : List String) :
    Except Unit (List String × Option ℚ) :=
  match trellis m observed with
  | .error e => .error e
  | .ok tr =>
    match lastCol tr with
    | none => .error ()
    | some probs =>
      match pickMax probs with
      | .error e => .error e
      | .ok (next_state, p_overall) =>
        match backLoop m (butLastRev tr) next_state [next_state] with
        | .error e => .error e
        | .ok seqRev => .ok (seqRev.reverse, p_overall)

/-! ## Trainer (`train_hmm`) -/

/-- The count-dict update `d[k] = d.get(k, 0) + 1`: bump an existing key
in place, or append a fresh key with count 1. -/
def insertCount : List (String × Nat) → String → List (String × Nat)
  | [], k => [(k, 1)]
  | (k', c) :: rest, k =>
    if k' = k then (k', c + 1) :: rest else (k', c) :: insertCount rest k

/-- Fold a stream of keys into a count dict (the Python loops build their
`emit` / `tran` dicts this way; we fix first-encounter key order, since
a Python 2 dict promises no particular order). -/
def countsFold (acc : List (String × Nat)) : List String → List (String × Nat)
  | [] => acc
  | x :: rest => countsFold (insertCount acc x) rest

def countsList (l : List String) : List (String × Nat) :=
  countsFold [] l

/-- `d.get(k, 0)`. -/
def dictCount (l : List (String × Nat)) (k : String) : Nat :=
  (alookup l k).getD 0

/-- `sample[1][0]` for every sample (`IndexError` on an empty label
list); this is the first loop of `train_hmm` and therefore the first
place an empty sample crashes the trainer. -/
def headsOf : List (List String × List String) → Except Unit (List String)
  | [] => .ok []
  | sa :: rest =>
    match sa.2 with
    | [] => .error ()
    | h :: _ =>
      match headsOf rest with
      | .error e => .error e
      | .ok hs => .ok (h :: hs)

/-- The emission tally for state `n` over one sample: walk the label list
and the observation list in step; positions labelled `n` read
`sample[0][i]` (an `IndexError` when the observation list is shorter),
other positions do not touch the observation list. -/
def emitsFor (n : String) : List String → List String → Except Unit (List String)
  | [], _ => .ok []
  | l :: ls, os =>
    if l = n then
      match os with
      | [] => .error ()
      | o :: os2 =>
        match emitsFor n ls os2 with
        | .error e => .error e
        | .ok rest => .ok (o :: rest)
    else emitsFor n ls os.tail

def emitsAll (n : String) : List (List String × List String) → Except Unit (List String)
  | [] => .ok []
  | sa :: rest =>
    match emitsFor n sa.2 sa.1 with
    | .error e => .error e
    | .ok l1 =>
      match emitsAll n rest with
      | .error e => .error e
      | .ok l2 => .ok (l1 ++ l2)

/-- Successor labels of the positions labelled `n`
(`for i in range(len(sample[1])-1): if sample[1][i] == s.name`). -/
def transTargets (n : String) : List String → List String
  | [] => []
  | l :: ls =>
    match ls with
    | [] => []
    | l2 :: _ =>
      if l = n then l2 :: transTargets n ls else transTargets n ls

def transAll (n : String) : List (List String × List String) → List String
  | [] => []
  | sa :: rest => transTargets n sa.2 ++ transAll n rest

/-- `sample[1][-1]`. -/
def lastStr : List String → Option String
  | [] => none
  | x :: rest =>
    match rest with
    | [] => some x
    | _ :: _ => lastStr rest

/-- Number of samples whose last label is `n` (`IndexError` on an empty
label list; only evaluated when `include_terminal_state` is set). -/
def termCount (n : String) : List (List String × List String) → Except Unit Nat
  | [] => .ok 0
  | sa :: rest =>
    match lastStr sa.2 with
    | none => .error ()
    | some lk =>
      match termCount n rest with
      | .error e => .error e
      | .ok c => .ok ((if lk = n then 1 else 0) + c)

/-- Build the `state` object for one name, mirroring the three per-state
loops of `train_hmm`.  Python's `x / (total * 1.0)` is exact rational
division here; a float division by zero (`term / 0.0`) is an error
(unreachable for names that occur in the training labels).  The initial
probability reads the `s_dict` of first-label counts. -/
def buildState (td : List (List String × List String)) (flag : Bool)
    (heads : List String) (n : String) : Except Unit state :=
  match emitsAll n td with
  | .error e => .error e
  | .ok emitted =>
    let total_e := emitted.length
    let p_em := (countsList emitted).map (fun p => (p.1, (p.2 : ℚ) / (total_e : ℚ)))
    let tr := transAll n td
    match (if flag then termCount n td else .ok 0) with
    | .error e => .error e
    | .ok term =>
      let total_t := tr.length + (if flag then term else 0)
      let p_tr := (countsList tr).map (fun p => (p.1, (p.2 : ℚ) / (total_t : ℚ)))
      match (if flag then
               (if total_t = 0 then Except.error ()
                else Except.ok ((term : ℚ) / (total_t : ℚ)))
             else Except.ok (0 : ℚ)) with
      | .error e => .error e
      | .ok p_term =>
        .ok { name := n
              p_initial := (dictCount (countsList heads) n : ℚ) / (td.length : ℚ)
              p_emission := p_em
              p_transition := p_tr
              p_termination := p_term }

def buildStates (td : List (List String × List String)) (flag : Bool)
    (heads : List String) : List String → Except Unit (List state)
  | [] => .ok []
  | n :: rest =>
    match buildState td flag heads n with
    | .error e => .error e
    | .ok st =>
      match buildStates td flag heads rest with
      | .error e => .error e
      | .ok sts => .ok (st :: sts)

/-- Per-sample `list(set(...))`, concatenated (`alphabet.extend(...)`).
Python's `set` has no specified order; the embedding fixes the order of
`List.dedup`. -/
def dedupConcat (f : (List String × List String) → List String) :
    List (List String × List String) → List String
  | [] => []
  | sa :: rest => (f sa).dedup ++ dedupConcat f rest

/-- `train_hmm`. -/
def train_hmm (training_data : List (List String × List String))
    (include_terminal_state : Bool) : Except Unit hmm :=
  let alphabet := (dedupConcat (fun sa => sa.1) training_data).dedup
  let state_names := (dedupConcat (fun sa => sa.2) training_data).dedup
  match headsOf training_data with
  | .error e => .error e
  | .ok heads =>
    match buildStates training_data include_terminal_state heads state_names with
    | .error e => .error e
    | .ok sts => .ok (mkHmm alphabet sts)

/-! ## A state-passing rendering of `viterbi_path` (for the
model-immutability claim)

The only mutation anywhere in `score` / `trellis` / `viterbi_path` is
the backtracking loop's `del probs[state]`, which rewrites columns of
the (freshly built) trellis in place; no attribute of the `hmm` object
or of its `state` objects is ever assigned.  To make that a provable
statement rather than a vacuous one, `viterbiSt` threads an explicit
store holding the model object together with the trellis columns, and
performs the in-place column updates on that store. -/

structure VitState where
  model : hmm
  cols : List Column
deriving DecidableEq

/-- `reversed(range(k))`. -/
def revRange : Nat → List Nat
  | 0 => []
  | n + 1 => n :: revRange n

/-- The backtracking loop acting on the store: read column `i`, delete
the filtered-out entries in place, pick the maximum of what is left. -/
def backwardSt : VitState → List Nat → String → List String →
    Except Unit (VitState × List String)
  | st, [], _, acc => .ok (st, acc)
  | st, i :: rest, next, acc =>
    let col := st.cols.getD i []
    let filtered := filterCol st.model next col
    let st2 : VitState := { st with cols := st.cols.set i filtered }
    match pickMax filtered with
    | .error e => .error e
    | .ok (n, _) => backwardSt st2 rest n (acc ++ [n])

/-- `hmm.viterbi_path`, with the store made explicit. -/
def viterbiSt (m : hmm) (observed : List String) :
    Except Unit (VitState × (List String × Option ℚ)) :=
  match trellis m observed with
  | .error e => .error e
  | .ok tr =>
    match lastCol tr with
    | none => .error ()
    | some probs =>
      match pickMax probs with
      | .error e => .error e
      | .ok (next_state, p_overall) =>
        match backwardSt ⟨m, tr⟩ (revRange (tr.length - 1)) next_state [next_state] with
        | .error e => .error e
        | .ok (st, seqRev) => .ok (st, (seqRev.reverse, p_overall))

/-! ## Specification-side notions

These definitions express the brute-force reference semantics the claims
compare the engine against: the enumeration of all `|states|^L` state
sequences (`hmm.enumerate`, section 4.2 of the spec), the value of a
single path, and the intended meaning of a trellis cell. -/

def stateNames (m : hmm) : List String := m.states.map Prod.fst

/-- `itertools.product(self.states.keys(), repeat=L)`. -/
def allStateSeqs (m : hmm) : Nat → List (List String)
  | 0 => [[]]
  | n + 1 => (stateNames m).flatMap (fun s => (allStateSeqs m n).map (s :: ·))

/-- The defined score of a sequence, if any (`None` and exceptions both
count as undefined). -/
def scoreOf (m : hmm) (obs ss : List String) : Option ℚ :=
  match score m ss obs with
  | .val v => some v
  | .invalid => none
  | .error => none

/-- Maximum of two optional values, `none` being the bottom. -/
def optMax : Option ℚ → Option ℚ → Option ℚ
  | none, b => b
  | some a, none => some a
  | some a, some b => some (max a b)

/-- Maximum of a list of optional values. -/
def bestOver (l : List (Option ℚ)) : Option ℚ := l.foldr optMax none

/-- The brute-force optimum: the maximum defined score over all
`|states|^L` state sequences of length `L = |obs|`. -/
def bestScore (m : hmm) (obs : List String) : Option ℚ :=
  bestOver ((allStateSeqs m obs.length).map (scoreOf m obs))

/-- First-position factor of a path: initial probability times emission
probability, defined iff both are positive and the state exists. -/
def headVal (m : hmm) (s o : String) : Option ℚ :=
  match alookup m.states s with
  | none => none
  | some st =>
    if 0 < st.p_initial ∧ 0 < (alookup st.p_emission o).getD 0 then
      some (st.p_initial * (alookup st.p_emission o).getD 0)
    else none

/-- Step factor of a path: transition probability from `prev` to `s`
times the emission probability of `o` at `s`, defined iff the transition
key is present with positive value and the emission is positive. -/
def stepVal (m : hmm) (prev s o : String) : Option ℚ :=
  match alookup m.states prev with
  | none => none
  | some pst =>
    match alookup pst.p_transition s with
    | none => none
    | some t =>
      match alookup m.states s with
      | none => none
      | some st =>
        if 0 < t ∧ 0 < (alookup st.p_emission o).getD 0 then
          some (t * (alookup st.p_emission o).getD 0)
        else none

/-- Strict multiplication on optional values (`none` absorbs). -/
def omul : Option ℚ → Option ℚ → Option ℚ
  | some a, some b => some (a * b)
  | some _, none => none
  | none, _ => none

/-- Value of a reversed (state, observation) path: the head of the list
is the latest position. -/
def rpathVal (m : hmm) : List (String × String) → Option ℚ
  | [] => none
  | (s, o) :: rest =>
    match rest with
    | [] => headVal m s o
    | (s', _) :: _ => omul (rpathVal m rest) (stepVal m s' s o)

/-- All reversed (state, observation) paths over a reversed observation
prefix. -/
def rpaths (m : hmm) : List String → List (List (String × String))
  | [] => [[]]
  | o :: ros =>
    (stateNames m).flatMap (fun s => (rpaths m ros).map (fun p => (s, o) :: p))

/-- Intended value of the trellis cell of state `s` over the reversed
observation prefix `robs`: the best value of any path of that length
ending at `s`. -/
def cellSpec (m : hmm) (s : String) : List String → Option ℚ
  | [] => none
  | o :: ros =>
    bestOver ((rpaths m ros).map (fun p => rpathVal m ((s, o) :: p)))

/-- The intended (pre-terminal-adjustment) column for a reversed
observation prefix. -/
def colFor (m : hmm) (robs : List String) : Column :=
  m.states.map (fun p => (p.1, cellSpec m p.1 robs))

/-- The columns below the current one, latest first: exactly the list
`trellis[len-2], ..., trellis[0]` the backtracking loop walks. -/
def colsBelow (m : hmm) : List String → List Column
  | [] => []
  | o :: t => colFor m (o :: t) :: colsBelow m t

/-- Chain value of a reversed path whose earliest position is entered
from the state `base`: transition and emission factors only, no initial
probability. -/
def chainVal (m : hmm) (base : String) : List (String × String) → Option ℚ
  | [] => some 1
  | (a, oa) :: rest =>
    match rest with
    | [] => stepVal m base a oa
    | (b, _) :: _ => omul (chainVal m base rest) (stepVal m b a oa)

/-- Forward value of the positions after the first, starting from the
state named `prev`. -/
def fvalRest (m : hmm) (prev : String) : List String → List String → Option ℚ
  | [], _ => some 1
  | s :: ss, os =>
    match os with
    | [] => none
    | o :: os2 => omul (stepVal m prev s o) (fvalRest m s ss os2)

/-- Forward value of a (state, observation) sequence pair: the product of
the initial, transition and emission factors, defined iff every factor
is positive (and every state exists).  This is the reference denotation
of `score` (without the terminal gate). -/
def fval (m : hmm) : List String → List String → Option ℚ
  | [], _ => some 1
  | s :: ss, os =>
    match os with
    | [] => none
    | o :: os2 => omul (headVal m s o) (fvalRest m s ss os2)

/-- Decidable validity of a sequence pair (every factor present and
positive), used to state the scorer contract. -/
def validSeqRest (m : hmm) (prev : String) : List String → List String → Bool
  | [], _ => true
  | s :: ss, os =>
    match os with
    | [] => false
    | o :: os2 =>
      match stepVal m prev s o with
      | none => false
      | some _ => validSeqRest m s ss os2

def validSeq (m : hmm) : List String → List String → Bool
  | [], _ => true
  | s :: ss, os =>
    match os with
    | [] => false
    | o :: os2 =>
      match headVal m s o with
      | none => false
      | some _ => validSeqRest m s ss os2

/-- The initial-probability factor named by the scorer contract. -/
def initFactor (m : hmm) : List String → ℚ
  | [] => 1
  | s :: _ =>
    match alookup m.states s with
    | none => 0
    | some st => st.p_initial

/-- The transition-probability factor named by the scorer contract. -/
def transFactor (m : hmm) (a b : String) : ℚ :=
  match alookup m.states a with
  | none => 0
  | some st => (alookup st.p_transition b).getD 0

/-- The emission-probability factor named by the scorer contract. -/
def emitFactor (m : hmm) (s o : String) : ℚ :=
  match alookup m.states s with
  | none => 0
  | some st => (alookup st.p_emission o).getD 0

def transFactors (m : hmm) (ss : List String) : List ℚ :=
  (ss.zip ss.tail).map (fun p => transFactor m p.1 p.2)

def emitFactors (m : hmm) (ss os : List String) : List ℚ :=
  (ss.zip os).map (fun p => emitFactor m p.1 p.2)

/-! ## Concrete models used by the claims -/

/-- Four-state model showing the backtracking defect: `P` and `Q` are
initial, both can reach `Z` (the only state reachable at step 2 that can
emit), `P` with a weak edge and `Q` with a strong one. -/
def stP : state := ⟨"P", 6/10, [("x", 1)], [("Z", 1/10), ("W", 9/10)], 0⟩
def stQ : state := ⟨"Q", 4/10, [("x", 1)], [("Z", 9/10), ("W", 1/10)], 0⟩
def stZ : state := ⟨"Z", 0, [("x", 1)], [], 0⟩
def stW : state := ⟨"W", 0, [], [], 0⟩
def mBack : hmm := mkHmm ["x"] [stP, stQ, stZ, stW]

/-- Model with a transition key present with probability `0.0` (`A → B`). -/
def stZeroA : state := ⟨"A", 1, [("x", 1), ("z", 0)], [("B", 0)], 0⟩
def stZeroB : state := ⟨"B", 0, [("x", 1)], [], 0⟩
def mZeroTrans : hmm := mkHmm ["x", "z"] [stZeroA, stZeroB]

/-- The same model with the `A → B` transition key absent. -/
def stNoA : state := ⟨"A", 1, [("x", 1), ("z", 0)], [], 0⟩
def mNoTrans : hmm := mkHmm ["x", "z"] [stNoA, stZeroB]

/-- One-state model with no outgoing transitions: its second trellis
column is all-`None`. -/
def stDead : state := ⟨"A", 1, [("x", 1)], [], 0⟩
def mDead : hmm := mkHmm ["x"] [stDead]

/-- One-state terminal model that cannot emit `"y"`. -/
def stTerm : state := ⟨"A", 1, [("x", 1)], [("A", 1/2)], 1/2⟩
def mTerm : hmm := mkHmm ["x"] [stTerm]

theorem mBack_elim : mBack = ⟨["x"], false, ["P", "Q"], [],
    [("P", stP), ("Q", stQ), ("Z", stZ), ("W", stW)]⟩ := by
  simp [mBack, mkHmm, hmmStep, stP, stQ, stZ, stW, dictInsert]

theorem mBack_trellis : trellis mBack ["x", "x"] =
    .ok [[("P", some (6/10)), ("Q", some (4/10)), ("Z", none), ("W", none)],
         [("P", none), ("Q", none), ("Z", some (36/100)), ("W", none)]] := by
  rw [mBack_elim]
  simp [stP, stQ, stZ, stW, trellis, trellisFrom, firstColumn, nextColumn, buildCol,
    firstCell, nextCell, candList, transCand, foldBest, alookup, elemStr]
  norm_num
  simp [stP, stQ, stZ, stW, trellis, trellisFrom, firstColumn, nextColumn, buildCol,
    firstCell, nextCell, candList, transCand, foldBest, alookup, elemStr]
  norm_num

theorem mBack_viterbi : viterbi_path mBack ["x", "x"] =
    .ok (["P", "Z"], some (36/100)) := by
  rw [viterbi_path, mBack_trellis, mBack_elim]
  simp [lastCol, butLastRev, pickMax, pickBest, gtOpt, backLoop, keepEntry, filterCol,
    _connected, alookup, stP, stQ, stZ, stW]
  all_goals (first | norm_num | skip)
  all_goals (first
    | simp [lastCol, butLastRev, pickMax, pickBest, gtOpt, backLoop, keepEntry,
        filterCol, _connected, alookup, stP, stQ, stZ, stW]
    | skip)
  all_goals (first | norm_num | skip)

theorem mBack_best : bestScore mBack ["x", "x"] = some (36/100) := by
  rw [bestScore]
  rw [mBack_elim]
  simp [allStateSeqs, stateNames, scoreOf, bestOver, optMax, score, scoreBody, scoreRest,
    alookup, elemStr, stP, stQ, stZ, stW]
  all_goals (first | norm_num | skip)
  all_goals (first
    | simp [allStateSeqs, stateNames, scoreOf, bestOver, optMax, score, scoreBody,
        scoreRest, alookup, elemStr, stP, stQ, stZ, stW]
    | skip)
  all_goals (first | norm_num | skip)

theorem mBack_score_path : score mBack ["P", "Z"] ["x", "x"] = .val (6/100) := by
  rw [mBack_elim]
  simp [score, scoreBody, scoreRest, alookup, elemStr, stP, stQ, stZ, stW]
  all_goals (first | norm_num | skip)

/-! ## C1, counterexample part: the backtracking loop of `viterbi_path`
picks the predecessor with the largest cell value, ignoring the
transition probability into the chosen next state, so the returned path
can be strictly worse than the optimum even though the returned float is
the optimum. -/

/-- C1 counterexample: on the four-state model `mBack` with observation
`["x","x"]` (within the claim's bounds), some sequence has a defined
score, yet `viterbi_path` returns the path `["P","Z"]` whose score
`6/100` is strictly below the brute-force maximum `36/100` — the
returned float is the maximum, the returned path does not attain it. -/
theorem viterbi_returns_suboptimal_path :
    viterbi_path mBack ["x", "x"] = .ok (["P", "Z"], some (36/100)) ∧
    bestScore mBack ["x", "x"] = some (36/100) ∧
    score mBack ["P", "Z"] ["x", "x"] = ScoreResult.val (6/100) ∧
    ((6 : ℚ)/100 < 36/100) :=
  ⟨mBack_viterbi, mBack_best, mBack_score_path, by norm_num⟩

/-! ## C10: scoring the empty pair -/

/-- C10 — Empty-sequence edge case: on a model without a terminal state,
`score([], [])` skips the loop entirely and returns the accumulator
`0.0`, i.e. the log of probability `1` — not `None` and not an error. -/
theorem score_empty_pair (m : hmm) (h : m.terminal_state = false) :
    score m [] [] = ScoreResult.val 1 ∧ Real.logb 10 ((1 : ℚ) : ℝ) = 0 := by
  refine ⟨?_, by norm_num⟩
  simp [score, h, scoreBody]

/-- Witness for `score_empty_pair` at a concrete model. -/
theorem score_empty_pair_witness :
    mDead.terminal_state = false ∧
      (score mDead [] [] = ScoreResult.val 1 ∧ Real.logb 10 ((1 : ℚ) : ℝ) = 0) :=
  ⟨by simp [mDead, mkHmm, hmmStep, stDead, dictInsert],
   score_empty_pair mDead (by simp [mDead, mkHmm, hmmStep, stDead, dictInsert])⟩

/-! ## C2: zero-probability gating in `score` -/

/-- C2 — Zero-probability gating: a **missing** transition key, a zero or
missing emission, and a zero initial probability all yield the invalid
result (`None`), but a transition key **present with value `0.0`** hits
`math.log10(0.0)` and raises `ValueError` instead of returning `None` —
the two do not behave identically, contradicting the claim (and the
scorer's own docstring, which promises `None` whenever a transition
probability is 0). -/
theorem score_zero_gating_behaviour :
    score mZeroTrans ["A", "B"] ["x", "x"] = ScoreResult.error ∧
    score mNoTrans ["A", "B"] ["x", "x"] = ScoreResult.invalid ∧
    score mZeroTrans ["A"] ["z"] = ScoreResult.invalid ∧
    score mZeroTrans ["A"] ["q"] = ScoreResult.invalid ∧
    score mZeroTrans ["B"] ["x"] = ScoreResult.invalid := by
  refine ⟨?_, ?_, ?_, ?_, ?_⟩ <;>
    simp [mZeroTrans, mNoTrans, stZeroA, stZeroB, stNoA, mkHmm, hmmStep, dictInsert,
      score, scoreBody, scoreRest, alookup, elemStr] <;>
    norm_num

/-! ## C4: NoPath handling in `viterbi_path` -/

/-- C4 — NoPath behaviour: when a backtracking step finds no admissible
predecessor, `viterbi_path` raises (`max` on an empty dict), and when
the last column has no defined cell at all it silently returns a state
sequence with a `None` score — neither is the defined failure value the
claim requires. -/
theorem viterbi_nopath_behaviour :
    viterbi_path mDead ["x", "x"] = .error () ∧
    viterbi_path mDead ["y"] = .ok (["A"], none) := by
  constructor <;>
    (simp [mDead, mkHmm, hmmStep, stDead, dictInsert, viterbi_path, trellis, trellisFrom,
      firstColumn, nextColumn, buildCol, firstCell, nextCell, candList, transCand,
      foldBest, alookup, pickMax, pickBest, gtOpt, backLoop, keepEntry, filterCol,
      lastCol, butLastRev, _connected, elemStr]
     all_goals (first | norm_num | skip)
     all_goals (first
      | simp [mDead, mkHmm, hmmStep, stDead, dictInsert, viterbi_path, trellis, trellisFrom,
          firstColumn, nextColumn, buildCol, firstCell, nextCell, candList, transCand,
          foldBest, alookup, pickMax, pickBest, gtOpt, backLoop, keepEntry, filterCol,
          lastCol, butLastRev, _connected, elemStr]
      | skip)
     all_goals (first | norm_num | skip))

/-! ## C5: the last-column terminal adjustment -/

/-- C5 counterexample: in a terminal model, a terminating state whose
cell is undefined by the ordinary column rule does not stay undefined in
the last column — `probs[s] += math.log10(...)` is `None + float`, a
`TypeError`, so the whole trellis computation raises instead of
producing a final column. -/
theorem trellis_terminal_none_raises : trellis mTerm ["y"] = .error () := by
  simp [mTerm, mkHmm, hmmStep, stTerm, dictInsert, trellis, trellisFrom, firstColumn, buildCol,
    firstCell, alookup, adjustLast, adjustCell, elemStr]

/-! ## Scorer correspondence lemmas and C3 -/

@[simp] theorem omul_none_left (b : Option ℚ) : omul none b = none := rfl

@[simp] theorem omul_none_right (a : Option ℚ) : omul a none = none := by
  cases a <;> rfl

@[simp] theorem omul_some_some (a b : ℚ) : omul (some a) (some b) = some (a * b) := rfl

theorem scoreRest_val_iff (m : hmm) (ss : List String) :
    ∀ (os : List String) (pn : String) (st : state) (acc v : ℚ),
      alookup m.states pn = some st →
      (scoreRest m st acc ss os = .val v ↔
        ∃ w, fvalRest m pn ss os = some w ∧ v = acc * w) := by
  induction ss with
  | nil =>
    intro os pn st acc v _
    simp [scoreRest, fvalRest, eq_comm]
  | cons s ss' ih =>
    intro os pn st acc v hpn
    cases os with
    | nil =>
      simp only [scoreRest, fvalRest]
      cases h1 : alookup m.states s <;> cases h2 : alookup st.p_transition s <;>
        simp [h1, h2]
    | cons o os2 =>
      simp only [scoreRest, fvalRest, stepVal, hpn]
      cases h1 : alookup m.states s with
      | none =>
        cases h2 : alookup st.p_transition s <;> simp [h1, h2]
      | some stu =>
        cases h2 : alookup st.p_transition s with
        | none => simp [h1, h2]
        | some t =>
          simp only [h1, h2]
          by_cases ht : t ≤ 0
          · have hnt : ¬ (0 < t) := not_lt.mpr ht
            simp [ht, hnt]
          · have hht : 0 < t := lt_of_not_le ht
            simp only [if_neg ht]
            cases h3 : alookup stu.p_emission o with
            | none =>
              simp [h3, hht]
            | some e =>
              simp only [h3]
              by_cases he : e = 0
              · simp [he, hht]
              · by_cases he2 : e < 0
                · have : ¬ (0 < e) := by linarith
                  simp [he, he2, hht, this]
                · have hpe : 0 < e := by
                    rcases lt_trichotomy e 0 with h | h | h
                    · exact absurd h he2
                    · exact absurd h he
                    · exact h
                  simp only [if_neg he, if_neg he2]
                  rw [ih os2 s stu (acc * t * e) v h1]
                  simp only [Option.getD_some, hpe, and_true, hht, if_pos]
                  constructor
                  · rintro ⟨w, hw, rfl⟩
                    rcases hfv : fvalRest m s ss' os2 with _ | w'
                    · rw [hfv] at hw; exact absurd hw (by simp)
                    · rw [hfv] at hw
                      refine ⟨t * e * w', ?_, ?_⟩
                      · simp
                      · obtain rfl : w' = w := by simpa using hw
                        ring
                  · rintro ⟨w, hw, rfl⟩
                    rcases hfv : fvalRest m s ss' os2 with _ | w'
                    · rw [hfv] at hw; exact absurd hw (by simp)
                    · rw [hfv] at hw
                      refine ⟨w', rfl, ?_⟩
                      obtain rfl : t * e * w' = w := by simpa using hw
                      ring


theorem scoreBody_val_iff (m : hmm) (ss os : List String) (v : ℚ) :
    scoreBody m ss os = .val v ↔ fval m ss os = some v := by
  cases ss with
  | nil => simp [scoreBody, fval, eq_comm]
  | cons s ss' =>
    cases os with
    | nil =>
      simp only [scoreBody, fval]
      cases h1 : alookup m.states s <;> simp [h1]
      split <;> simp <;> split <;> simp
    | cons o os2 =>
      simp only [scoreBody, fval, headVal]
      cases h1 : alookup m.states s with
      | none => simp [h1]
      | some st =>
        simp only [h1]
        by_cases hz : st.p_initial = 0
        · have : ¬ (0 < st.p_initial) := by rw [hz]; exact lt_irrefl 0
          simp [hz, this]
        · by_cases hneg : st.p_initial < 0
          · have : ¬ (0 < st.p_initial) := by linarith
            simp [hz, hneg, this]
          · have hpos : 0 < st.p_initial := by
              rcases lt_trichotomy st.p_initial 0 with h | h | h
              · exact absurd h hneg
              · exact absurd h hz
              · exact h
            simp only [if_neg hz, if_neg hneg]
            cases h3 : alookup st.p_emission o with
            | none => simp [h3, hpos]
            | some e =>
              simp only [h3]
              by_cases he : e = 0
              · have : ¬ (0 < e) := by rw [he]; exact lt_irrefl 0
                simp [he, hpos, this]
              · by_cases he2 : e < 0
                · have : ¬ (0 < e) := by linarith
                  simp [he, he2, hpos, this]
                · have hpe : 0 < e := by
                    rcases lt_trichotomy e 0 with h | h | h
                    · exact absurd h he2
                    · exact absurd h he
                    · exact h
                  simp only [if_neg he, if_neg he2]
                  rw [scoreRest_val_iff m ss' os2 s st (st.p_initial * e) v h1]
                  simp only [Option.getD_some, hpos, hpe, and_true, if_pos, true_and]
                  constructor
                  · rintro ⟨w, hw, rfl⟩
                    rw [hw]; simp
                  · intro hw
                    rcases hfv : fvalRest m s ss' os2 with _ | w'
                    · rw [hfv] at hw; exact absurd hw (by simp)
                    · rw [hfv] at hw
                      exact ⟨w', rfl, by simpa using hw.symm⟩

theorem score_val_iff (m : hmm) (h : m.terminal_state = false)
    (ss os : List String) (v : ℚ) :
    score m ss os = .val v ↔ fval m ss os = some v := by
  rw [score, h]
  simp [scoreBody_val_iff]

theorem score_val_iff_terminal (m : hmm) (h : m.terminal_state = true)
    (ss os : List String) (v : ℚ) (l : String) (hl : ss.getLast? = some l)
    (hgate : elemStr l m.terminating_states = true) :
    score m ss os = .val v ↔ fval m ss os = some v := by
  rw [score, h]
  simp [hl, hgate, scoreBody_val_iff]


theorem stepVal_eq (m : hmm) (prev s o : String) (u : ℚ)
    (h : stepVal m prev s o = some u) :
    u = transFactor m prev s * emitFactor m s o ∧
      0 < transFactor m prev s ∧ 0 < emitFactor m s o := by
  rw [stepVal] at h
  rcases h1 : alookup m.states prev with _ | pst <;> simp only [h1] at h
  · exact absurd h (by simp)
  rcases h2 : alookup pst.p_transition s with _ | t <;> simp only [h2] at h
  · exact absurd h (by simp)
  rcases h3 : alookup m.states s with _ | st <;> simp only [h3] at h
  · exact absurd h (by simp)
  by_cases hc : 0 < t ∧ 0 < (alookup st.p_emission o).getD 0
  · rw [if_pos hc] at h
    obtain rfl : t * (alookup st.p_emission o).getD 0 = u := by simpa using h
    refine ⟨?_, ?_, ?_⟩ <;> simp [transFactor, emitFactor, h1, h2, h3, hc.1, hc.2]
  · rw [if_neg hc] at h; exact absurd h (by simp)

theorem headVal_eq (m : hmm) (s o : String) (u : ℚ)
    (h : headVal m s o = some u) :
    ∀ ss : List String,
      u = initFactor m (s :: ss) * emitFactor m s o ∧
        0 < initFactor m (s :: ss) ∧ 0 < emitFactor m s o := by
  intro ss
  rw [headVal] at h
  rcases h1 : alookup m.states s with _ | st <;> simp only [h1] at h
  · exact absurd h (by simp)
  by_cases hc : 0 < st.p_initial ∧ 0 < (alookup st.p_emission o).getD 0
  · rw [if_pos hc] at h
    obtain rfl : st.p_initial * (alookup st.p_emission o).getD 0 = u := by simpa using h
    refine ⟨?_, ?_, ?_⟩ <;> simp [initFactor, emitFactor, h1, hc.1, hc.2]
  · rw [if_neg hc] at h; exact absurd h (by simp)

theorem fvalRest_eq_factors (m : hmm) (ss : List String) :
    ∀ (os : List String) (prev : String) (w : ℚ),
      fvalRest m prev ss os = some w →
      w = (((prev :: ss).zip ss).map (fun p => transFactor m p.1 p.2)).prod *
            ((ss.zip os).map (fun p => emitFactor m p.1 p.2)).prod ∧
        (∀ x ∈ ((prev :: ss).zip ss).map (fun p => transFactor m p.1 p.2), 0 < x) ∧
        (∀ x ∈ (ss.zip os).map (fun p => emitFactor m p.1 p.2), 0 < x) := by
  induction ss with
  | nil =>
    intro os prev w h
    obtain rfl : (1 : ℚ) = w := by simpa [fvalRest] using h
    simp
  | cons s ss' ih =>
    intro os prev w h
    cases os with
    | nil => exact absurd h (by simp [fvalRest])
    | cons o os2 =>
      rw [fvalRest] at h
      rcases h1 : stepVal m prev s o with _ | u <;> simp only [h1] at h
      · exact absurd h (by simp)
      rcases h2 : fvalRest m s ss' os2 with _ | w' <;> simp only [h2] at h
      · exact absurd h (by simp)
      obtain rfl : u * w' = w := by simpa using h
      obtain ⟨hu, hut, hue⟩ := stepVal_eq m prev s o u h1
      obtain ⟨hw', hwt, hwe⟩ := ih os2 s w' h2
      refine ⟨?_, ?_, ?_⟩
      · subst hu hw'
        simp only [List.zip_cons_cons, List.map_cons, List.prod_cons]
        ring
      · intro x hx
        simp only [List.zip_cons_cons, List.map_cons, List.mem_cons] at hx
        rcases hx with rfl | hx
        · exact hut
        · exact hwt x (by simpa using hx)
      · intro x hx
        simp only [List.zip_cons_cons, List.map_cons, List.mem_cons] at hx
        rcases hx with rfl | hx
        · exact hue
        · exact hwe x (by simpa using hx)

theorem fval_eq_factors (m : hmm) (s : String) (ss os2 : List String) (o : String)
    (w : ℚ) (h : fval m (s :: ss) (o :: os2) = some w) :
    w = initFactor m (s :: ss) * (transFactors m (s :: ss)).prod *
          (emitFactors m (s :: ss) (o :: os2)).prod ∧
      0 < initFactor m (s :: ss) ∧
      (∀ x ∈ transFactors m (s :: ss), 0 < x) ∧
      (∀ x ∈ emitFactors m (s :: ss) (o :: os2), 0 < x) := by
  rw [fval] at h
  rcases h1 : headVal m s o with _ | u <;> simp only [h1] at h
  · exact absurd h (by simp)
  rcases h2 : fvalRest m s ss os2 with _ | w' <;> simp only [h2] at h
  · exact absurd h (by simp)
  obtain rfl : u * w' = w := by simpa using h
  obtain ⟨hu, hui, hue⟩ := headVal_eq m s o u h1 ss
  obtain ⟨hw', hwt, hwe⟩ := fvalRest_eq_factors m ss os2 s w' h2
  refine ⟨?_, hui, ?_, ?_⟩
  · subst hu hw'
    simp only [transFactors, emitFactors, List.tail_cons, List.zip_cons_cons,
      List.map_cons, List.prod_cons]
    ring
  · intro x hx
    simp only [transFactors, List.tail_cons] at hx
    exact hwt x hx
  · intro x hx
    simp only [emitFactors, List.zip_cons_cons, List.map_cons, List.mem_cons] at hx
    rcases hx with rfl | hx
    · exact hue
    · exact hwe x (by simpa using hx)


theorem validSeqRest_iff (m : hmm) (ss : List String) :
    ∀ (os : List String) (prev : String),
      validSeqRest m prev ss os = true ↔ ∃ w, fvalRest m prev ss os = some w := by
  induction ss with
  | nil => intro os prev; simp [validSeqRest, fvalRest]
  | cons s ss' ih =>
    intro os prev
    cases os with
    | nil => simp [validSeqRest, fvalRest]
    | cons o os2 =>
      rw [validSeqRest, fvalRest]
      rcases h1 : stepVal m prev s o with _ | u
      · simp
      · simp only []
        constructor
        · intro hv
          obtain ⟨w, hw⟩ := (ih os2 s).mp hv
          exact ⟨u * w, by simp [hw]⟩
        · rintro ⟨w, hw⟩
          rcases h2 : fvalRest m s ss' os2 with _ | w'
          · rw [h2] at hw; exact absurd hw (by simp)
          · exact (ih os2 s).mpr ⟨w', h2⟩

theorem validSeq_iff (m : hmm) (ss os : List String) :
    validSeq m ss os = true ↔ ∃ w, fval m ss os = some w := by
  cases ss with
  | nil => simp [validSeq, fval]
  | cons s ss' =>
    cases os with
    | nil => simp [validSeq, fval]
    | cons o os2 =>
      rw [validSeq, fval]
      rcases h1 : headVal m s o with _ | u
      · simp
      · simp only []
        constructor
        · intro hv
          obtain ⟨w, hw⟩ := (validSeqRest_iff m ss' os2 s).mp hv
          exact ⟨u * w, by simp [hw]⟩
        · rintro ⟨w, hw⟩
          rcases h2 : fvalRest m s ss' os2 with _ | w'
          · rw [h2] at hw; exact absurd hw (by simp)
          · exact (validSeqRest_iff m ss' os2 s).mpr ⟨w', h2⟩

theorem logb_list_prod (l : List ℚ) (h : ∀ x ∈ l, (0 : ℚ) < x) :
    Real.logb 10 ((l.prod : ℚ) : ℝ) =
      (l.map (fun q => Real.logb 10 ((q : ℚ) : ℝ))).sum := by
  induction l with
  | nil => simp
  | cons x xs ih =>
    have hx : (0 : ℚ) < x := h x (by simp)
    have hxs : ∀ y ∈ xs, (0 : ℚ) < y := fun y hy => h y (by simp [hy])
    have hprod : (0 : ℚ) < xs.prod := List.prod_pos hxs
    have hx' : ((x : ℚ) : ℝ) ≠ 0 := ne_of_gt (by exact_mod_cast hx)
    have hp' : ((xs.prod : ℚ) : ℝ) ≠ 0 := ne_of_gt (by exact_mod_cast hprod)
    rw [List.prod_cons, List.map_cons, List.sum_cons, ← ih hxs]
    push_cast
    push_cast at hx' hp'
    rw [Real.logb_mul hx' hp']


/-- C3 — the scorer contract. -/
theorem score_contract (m : hmm) (ss os : List String)
    (hne : ss ≠ []) (hlen : ss.length = os.length)
    (hval : validSeq m ss os = true)
    (hgate : m.terminal_state = true →
      ∃ l, ss.getLast? = some l ∧ elemStr l m.terminating_states = true) :
    score m ss os = ScoreResult.val
        (initFactor m ss * (transFactors m ss).prod * (emitFactors m ss os).prod) ∧
    Real.logb 10
        ((initFactor m ss * (transFactors m ss).prod * (emitFactors m ss os).prod : ℚ) : ℝ) =
      Real.logb 10 ((initFactor m ss : ℚ) : ℝ)
        + ((transFactors m ss).map (fun q => Real.logb 10 ((q : ℚ) : ℝ))).sum
        + ((emitFactors m ss os).map (fun q => Real.logb 10 ((q : ℚ) : ℝ))).sum := by
  obtain ⟨w, hw⟩ := (validSeq_iff m ss os).mp hval
  cases ss with
  | nil => exact absurd rfl hne
  | cons s ss' =>
    cases os with
    | nil => simp at hlen
    | cons o os2 =>
      obtain ⟨hwe, hpos_i, hpos_t, hpos_e⟩ := fval_eq_factors m s ss' os2 o w hw
      have hform : score m (s :: ss') (o :: os2) = ScoreResult.val
          (initFactor m (s :: ss') * (transFactors m (s :: ss')).prod *
            (emitFactors m (s :: ss') (o :: os2)).prod) := by
        cases hterm : m.terminal_state with
        | false =>
          rw [score_val_iff m hterm, hw, hwe]
        | true =>
          obtain ⟨l, hl, hg⟩ := hgate hterm
          rw [score_val_iff_terminal m hterm _ _ _ l hl hg, hw, hwe]
      refine ⟨hform, ?_⟩
      have hall : ∀ x ∈ (initFactor m (s :: ss') ::
          (transFactors m (s :: ss') ++ emitFactors m (s :: ss') (o :: os2))), (0 : ℚ) < x := by
        intro x hx
        simp only [List.mem_cons, List.mem_append] at hx
        rcases hx with rfl | hx | hx
        · exact hpos_i
        · exact hpos_t x hx
        · exact hpos_e x hx
      have h := logb_list_prod _ hall
      simp only [List.prod_cons, List.prod_append, List.map_cons, List.map_append,
        List.sum_cons, List.sum_append] at h
      have harg : initFactor m (s :: ss') * (transFactors m (s :: ss')).prod *
          (emitFactors m (s :: ss') (o :: os2)).prod =
          initFactor m (s :: ss') * ((transFactors m (s :: ss')).prod *
            (emitFactors m (s :: ss') (o :: os2)).prod) := by ring
      rw [harg, h]
      ring


theorem mBack_valid_QZ : validSeq mBack ["Q", "Z"] ["x", "x"] = true := by
  rw [mBack_elim]
  simp [validSeq, validSeqRest, headVal, stepVal, alookup, stP, stQ, stZ, stW]
  all_goals (first | norm_num | skip)
  all_goals (first
    | simp [validSeq, validSeqRest, headVal, stepVal, alookup, stP, stQ, stZ, stW]
    | skip)
  all_goals (first | norm_num | skip)

/-- Witness for `score_contract` on the concrete model `mBack` and the
valid pair `(["Q","Z"], ["x","x"])`. -/
theorem score_contract_witness :
    validSeq mBack ["Q", "Z"] ["x", "x"] = true ∧
    (score mBack ["Q", "Z"] ["x", "x"] = ScoreResult.val
        (initFactor mBack ["Q", "Z"] * (transFactors mBack ["Q", "Z"]).prod *
          (emitFactors mBack ["Q", "Z"] ["x", "x"]).prod) ∧
      Real.logb 10
          ((initFactor mBack ["Q", "Z"] * (transFactors mBack ["Q", "Z"]).prod *
            (emitFactors mBack ["Q", "Z"] ["x", "x"]).prod : ℚ) : ℝ) =
        Real.logb 10 ((initFactor mBack ["Q", "Z"] : ℚ) : ℝ)
          + ((transFactors mBack ["Q", "Z"]).map
              (fun q => Real.logb 10 ((q : ℚ) : ℝ))).sum
          + ((emitFactors mBack ["Q", "Z"] ["x", "x"]).map
              (fun q => Real.logb 10 ((q : ℚ) : ℝ))).sum) :=
  ⟨mBack_valid_QZ,
   score_contract mBack ["Q", "Z"] ["x", "x"] (by simp) (by simp)
     mBack_valid_QZ (by simp [mBack_elim])⟩


/-! ## C8: model immutability -/

theorem revRange_map_succ {α : Type} (n : Nat) (f : Nat → α) :
    (revRange (n + 1)).map f = (revRange n).map (fun i => f (i + 1)) ++ [f 0] := by
  induction n with
  | zero => simp [revRange]
  | succ k ih =>
    rw [show revRange (k + 2) = (k + 1) :: revRange (k + 1) from rfl, List.map_cons,
      ih, show revRange (k + 1) = k :: revRange k from rfl, List.map_cons]
    simp

theorem butLastRev_eq : ∀ tr : List Column,
    butLastRev tr = (revRange (tr.length - 1)).map (fun i => tr.getD i []) := by
  intro tr
  induction tr with
  | nil => simp [butLastRev, revRange]
  | cons c rest ih =>
    cases rest with
    | nil => simp [butLastRev, revRange]
    | cons d t =>
      rw [show butLastRev (c :: d :: t) = butLastRev (d :: t) ++ [c] from rfl, ih]
      have h1 : (c :: d :: t).length - 1 = t.length + 1 := rfl
      rw [h1, revRange_map_succ]
      simp

theorem getD_set_ne (l : List Column) (i j : Nat) (x : Column) (h : i ≠ j) :
    (l.set i x).getD j [] = l.getD j [] := by
  rw [List.getD_eq_getElem?_getD, List.getD_eq_getElem?_getD, List.getElem?_set_ne h]

theorem backwardSt_spec : ∀ (k : Nat) (st : VitState) (next : String)
    (acc : List String) (cols0 : List Column),
    (∀ j, j < k → st.cols.getD j [] = cols0.getD j []) →
    ∃ cols', backwardSt st (revRange k) next acc =
      (backLoop st.model ((revRange k).map (fun i => cols0.getD i [])) next acc).map
        (fun a => ({ model := st.model, cols := cols' }, a)) := by
  intro k
  induction k with
  | zero =>
    intro st next acc cols0 _
    exact ⟨st.cols, rfl⟩
  | succ k ih =>
    intro st next acc cols0 hag
    have hcol : st.cols.getD k [] = cols0.getD k [] := hag k (Nat.lt_succ_self k)
    rw [show revRange (k + 1) = k :: revRange k from rfl]
    rw [backwardSt, List.map_cons, backLoop, hcol]
    rcases hp : pickMax (filterCol st.model next (cols0.getD k [])) with e | p
    · exact ⟨st.cols, by simp [Except.map]⟩
    · obtain ⟨n, v⟩ := p
      have hag2 : ∀ j, j < k →
          (st.cols.set k (filterCol st.model next (cols0.getD k []))).getD j [] =
            cols0.getD j [] := by
        intro j hj
        rw [getD_set_ne _ _ _ _ (by omega), hag j (Nat.lt_succ_of_lt hj)]
      obtain ⟨cols', hc⟩ := ih ⟨st.model, st.cols.set k (filterCol st.model next (cols0.getD k []))⟩
        n (acc ++ [n]) cols0 hag2
      exact ⟨cols', hc⟩

theorem viterbiSt_spec (m : hmm) (obs : List String) :
    ∃ cols', viterbiSt m obs =
      (viterbi_path m obs).map (fun r => ({ model := m, cols := cols' }, r)) := by
  rw [viterbiSt, viterbi_path]
  rcases ht : trellis m obs with e | tr
  · exact ⟨[], rfl⟩
  dsimp only []
  rcases hl : lastCol tr with _ | probs
  · exact ⟨[], rfl⟩
  dsimp only []
  rcases hp : pickMax probs with e | p
  · exact ⟨[], by simp [Except.map]⟩
  obtain ⟨next_state, p_overall⟩ := p
  dsimp only []
  rw [butLastRev_eq tr]
  obtain ⟨cols', hc⟩ := backwardSt_spec (tr.length - 1) ⟨m, tr⟩ next_state [next_state] tr
    (fun _ _ => rfl)
  rw [hc]
  rcases hb : backLoop m ((revRange (tr.length - 1)).map (fun i => tr.getD i []))
      next_state [next_state] with e | seqRev
  · exact ⟨cols', by simp [Except.map]⟩
  · exact ⟨cols', by simp [Except.map]⟩

/-- C8 — Model immutability under queries: running the Viterbi engine
with its trellis store made explicit (including the in-place `del`
filtering of trellis columns during backtracking) returns a store whose
model object is exactly the input model; consequently the result agrees
with the pure rendering, and `score` and `trellis` recomputed on the
post-run model coincide with those on the original model, so repeated
invocations observe identical state.  (`score` and `trellis` themselves
assign no attribute of the model or its states.) -/
theorem model_immutable_queries (m : hmm) (obs ss os : List String) :
    (viterbiSt m obs).map (fun r => r.1.model) = (viterbi_path m obs).map (fun _ => m) ∧
    (viterbiSt m obs).map (fun r => r.2) = viterbi_path m obs ∧
    (viterbiSt m obs).map (fun r => score r.1.model ss os) =
      (viterbi_path m obs).map (fun _ => score m ss os) ∧
    (viterbiSt m obs).map (fun r => trellis r.1.model obs) =
      (viterbi_path m obs).map (fun _ => trellis m obs) := by
  obtain ⟨cols', h⟩ := viterbiSt_spec m obs
  rw [h]
  cases hv : viterbi_path m obs <;> simp [Except.map]



/-! ## Trainer lemmas and the training claims -/

/-! Spec-side counts for the trainer claims. -/

def countFirst (td : List (List String × List String)) (n : String) : Nat :=
  td.countP (fun sa => decide (sa.2.head? = some n))

def countPos (td : List (List String × List String)) (n : String) : Nat :=
  (td.map (fun sa => sa.2.count n)).sum

def countEmit (td : List (List String × List String)) (n o : String) : Nat :=
  (td.map (fun sa => (sa.2.zip sa.1).countP (fun p => decide (p.1 = n ∧ p.2 = o)))).sum

def countPair (td : List (List String × List String)) (n n2 : String) : Nat :=
  (td.map (fun sa => (sa.2.zip sa.2.tail).countP (fun p => decide (p.1 = n ∧ p.2 = n2)))).sum

def countNonFinal (td : List (List String × List String)) (n : String) : Nat :=
  (td.map (fun sa => sa.2.dropLast.count n)).sum

def countLast (td : List (List String × List String)) (n : String) : Nat :=
  td.countP (fun sa => decide (sa.2.getLast? = some n))

/-- The transition denominator of the claims: the count of non-final
positions labelled `n`, plus (with the terminal flag) the count of
samples ending in `n`. -/
def denomD (td : List (List String × List String)) (flag : Bool) (n : String) : Nat :=
  countNonFinal td n + (if flag then countLast td n else 0)

/-! Count-dict lemmas. -/

theorem insertCount_alookup (acc : List (String × Nat)) (x k : String) :
    alookup (insertCount acc x) k =
      if x = k then some ((alookup acc k).getD 0 + 1) else alookup acc k := by
  induction acc with
  | nil =>
    by_cases h : x = k <;> simp [insertCount, alookup, h]
  | cons p rest ih =>
    obtain ⟨k', c⟩ := p
    by_cases h1 : k' = x
    · subst h1
      by_cases h2 : k' = k <;> simp [insertCount, alookup, h2]
    · rw [show insertCount ((k', c) :: rest) x = (k', c) :: insertCount rest x by
        simp [insertCount, h1]]
      by_cases h2 : k' = k
      · subst h2
        have hx : ¬ x = k' := fun h => h1 h.symm
        simp [alookup, hx]
      · simp [alookup, h2, ih]

theorem countsFold_alookup (l : List String) :
    ∀ (acc : List (String × Nat)) (k : String),
      alookup (countsFold acc l) k =
        match alookup acc k with
        | some c => some (c + l.count k)
        | none => if l.count k = 0 then none else some (l.count k) := by
  induction l with
  | nil =>
    intro acc k
    rcases h : alookup acc k with _ | c <;> simp [countsFold, h]
  | cons x xs ih =>
    intro acc k
    rw [show countsFold acc (x :: xs) = countsFold (insertCount acc x) xs from rfl, ih,
      insertCount_alookup]
    by_cases hx : x = k
    · subst hx
      rcases h : alookup acc x with _ | c <;>
        simp [h, List.count_cons, Nat.add_comm, Nat.add_assoc, Nat.add_left_comm]
    · have : (x :: xs).count k = xs.count k := by
        simp [List.count_cons, hx]
      rcases h : alookup acc k with _ | c <;> simp [hx, h, this]

theorem countsList_alookup (l : List String) (k : String) :
    alookup (countsList l) k =
      if l.count k = 0 then none else some (l.count k) := by
  rw [countsList, countsFold_alookup]
  simp [alookup]

theorem dictCount_eq_count (l : List String) (k : String) :
    dictCount (countsList l) k = l.count k := by
  rw [dictCount, countsList_alookup]
  by_cases h : l.count k = 0 <;> simp [h]

theorem insertCount_sum (acc : List (String × Nat)) (x : String) :
    ((insertCount acc x).map (fun p => p.2)).sum = ((acc.map (fun p => p.2)).sum) + 1 := by
  induction acc with
  | nil => simp [insertCount]
  | cons p rest ih =>
    obtain ⟨k', c⟩ := p
    by_cases h : k' = x <;> simp [insertCount, h, ih] <;> omega

theorem countsFold_sum (l : List String) :
    ∀ acc : List (String × Nat),
      ((countsFold acc l).map (fun p => p.2)).sum = (acc.map (fun p => p.2)).sum + l.length := by
  induction l with
  | nil => intro acc; simp [countsFold]
  | cons x xs ih =>
    intro acc
    rw [show countsFold acc (x :: xs) = countsFold (insertCount acc x) xs from rfl, ih,
      insertCount_sum]
    simp
    omega

theorem countsList_sum (l : List String) :
    ((countsList l).map (fun p => p.2)).sum = l.length := by
  rw [countsList, countsFold_sum]
  simp

theorem alookup_map_val {α β : Type} (L : List (String × α)) (f : α → β) (k : String) :
    alookup (L.map (fun p => (p.1, f p.2))) k = (alookup L k).map f := by
  induction L with
  | nil => simp [alookup]
  | cons p rest ih =>
    by_cases h : p.1 = k <;> simp [alookup, h, ih]


theorem lastStr_eq_getLast? : ∀ l : List String, lastStr l = l.getLast? := by
  intro l
  induction l with
  | nil => simp [lastStr]
  | cons x rest ih =>
    cases rest with
    | nil => simp [lastStr]
    | cons y t => rw [show lastStr (x :: y :: t) = lastStr (y :: t) from rfl, ih]; simp

theorem headsOf_ok (td : List (List String × List String))
    (h : ∀ sa ∈ td, sa.2 ≠ []) :
    ∃ heads, headsOf td = .ok heads ∧
      ∀ n, heads.count n = countFirst td n := by
  induction td with
  | nil => exact ⟨[], rfl, fun n => by simp [countFirst]⟩
  | cons sa rest ih =>
    obtain ⟨heads, hh, hc⟩ := ih (fun x hx => h x (List.mem_cons_of_mem sa hx))
    rcases hsa : sa.2 with _ | ⟨x, t⟩
    · exact absurd hsa (h sa (List.mem_cons_self sa rest))
    · refine ⟨x :: heads, ?_, ?_⟩
      · rw [headsOf, hsa, hh]
      · intro n
        rw [countFirst, List.countP_cons]
        by_cases hx : x = n
        · subst hx
          simp [List.count_cons, hc x, countFirst, hsa]
        · simp [List.count_cons, hx, hc n, countFirst, hsa]

theorem headsOf_ok_nonempty (td : List (List String × List String)) (heads : List String)
    (h : headsOf td = .ok heads) : ∀ sa ∈ td, sa.2 ≠ [] := by
  induction td generalizing heads with
  | nil => simp
  | cons sa rest ih =>
    intro x hx
    rw [headsOf] at h
    rcases hsa : sa.2 with _ | ⟨y, t⟩ <;> rw [hsa] at h
    · exact absurd h (by simp)
    · rcases hr : headsOf rest with e | hs <;> rw [hr] at h
      · exact absurd h (by simp)
      · rcases List.mem_cons.mp hx with rfl | hx2
        · simp [hsa]
        · exact ih hs hr x hx2

theorem headsOf_ok_counts (td : List (List String × List String)) (heads : List String)
    (h : headsOf td = .ok heads) :
    (∀ n, heads.count n = countFirst td n) ∧ heads.length = td.length ∧
      (∀ x ∈ heads, ∃ sa ∈ td, x ∈ sa.2) := by
  induction td generalizing heads with
  | nil =>
    obtain rfl : [] = heads := by simpa [headsOf] using h
    exact ⟨fun n => by simp [countFirst], rfl, by simp⟩
  | cons sa rest ih =>
    rw [headsOf] at h
    rcases hsa : sa.2 with _ | ⟨y, t⟩ <;> rw [hsa] at h
    · exact absurd h (by simp)
    rcases hr : headsOf rest with e | hs <;> rw [hr] at h
    · exact absurd h (by simp)
    obtain rfl : y :: hs = heads := by simpa using h
    obtain ⟨ihc, ihl, ihm⟩ := ih hs hr
    refine ⟨?_, by simp [ihl], ?_⟩
    · intro n
      rw [countFirst, List.countP_cons]
      by_cases hy : y = n
      · subst hy
        simp [List.count_cons, ihc y, countFirst, hsa]
      · simp [List.count_cons, hy, ihc n, countFirst, hsa]
    · intro x hx
      rcases List.mem_cons.mp hx with rfl | hx2
      · exact ⟨sa, List.mem_cons_self sa rest, by simp [hsa]⟩
      · obtain ⟨sb, hsb, hxm⟩ := ihm x hx2
        exact ⟨sb, List.mem_cons_of_mem sa hsb, hxm⟩


theorem emitsFor_ok_exists (n : String) : ∀ (ls os : List String),
    ls.length ≤ os.length → ∃ res, emitsFor n ls os = .ok res := by
  intro ls
  induction ls with
  | nil => intro os _; exact ⟨[], rfl⟩
  | cons l ls' ih =>
    intro os hlen
    rcases os with _ | ⟨o, os2⟩
    · simp at hlen
    by_cases hl : l = n
    · obtain ⟨res, hres⟩ := ih os2 (by simpa using hlen)
      exact ⟨o :: res, by rw [emitsFor, if_pos hl, hres]⟩
    · obtain ⟨res, hres⟩ := ih os2 (by simpa using hlen)
      refine ⟨res, ?_⟩
      rw [emitsFor, if_neg hl]
      simpa using hres

theorem emitsFor_ok_length (n : String) : ∀ (ls os res : List String),
    emitsFor n ls os = .ok res → res.length = ls.count n := by
  intro ls
  induction ls with
  | nil =>
    intro os res h
    obtain rfl : [] = res := by simpa [emitsFor] using h
    simp
  | cons l ls' ih =>
    intro os res h
    simp only [emitsFor] at h
    by_cases hl : l = n
    · rw [if_pos hl] at h
      rcases os with _ | ⟨o, os2⟩
      · exact absurd h (by simp)
      dsimp only [] at h
      rcases hr : emitsFor n ls' os2 with e | res2 <;> rw [hr] at h
      · exact absurd h (by simp)
      obtain rfl : o :: res2 = res := by simpa using h
      subst hl
      simp [List.count_cons, ih os2 res2 hr]
    · rw [if_neg hl] at h
      simp [List.count_cons, hl, ih _ _ h]

theorem emitsFor_ok_count (n : String) : ∀ (ls os res : List String)
    (_ : ls.length ≤ os.length) (_ : emitsFor n ls os = .ok res) (o : String),
    res.count o = (ls.zip os).countP (fun p => decide (p.1 = n ∧ p.2 = o)) := by
  intro ls
  induction ls with
  | nil =>
    intro os res _ h o
    obtain rfl : [] = res := by simpa [emitsFor] using h
    simp
  | cons l ls' ih =>
    intro os res hlen h o
    rcases os with _ | ⟨ob, os2⟩
    · simp at hlen
    simp only [emitsFor] at h
    by_cases hl : l = n
    · rw [if_pos hl] at h
      rcases hr : emitsFor n ls' os2 with e | res2 <;> rw [hr] at h
      · exact absurd h (by simp)
      obtain rfl : ob :: res2 = res := by simpa using h
      subst hl
      rw [List.zip_cons_cons, List.countP_cons]
      by_cases ho : ob = o
      · simp [List.count_cons, ho, ih os2 res2 (by simpa using hlen) hr o]
      · simp [List.count_cons, ho, ih os2 res2 (by simpa using hlen) hr o]
    · rw [if_neg hl] at h
      simp only [List.tail_cons] at h
      rw [List.zip_cons_cons, List.countP_cons]
      simp [hl, ih os2 res (by simpa using hlen) h o]

theorem emitsAll_ok_exists (n : String) (td : List (List String × List String))
    (h : ∀ sa ∈ td, sa.2.length ≤ sa.1.length) :
    ∃ res, emitsAll n td = .ok res := by
  induction td with
  | nil => exact ⟨[], rfl⟩
  | cons sa rest ih =>
    obtain ⟨r1, h1⟩ := emitsFor_ok_exists n sa.2 sa.1 (h sa (List.mem_cons_self sa rest))
    obtain ⟨r2, h2⟩ := ih (fun x hx => h x (List.mem_cons_of_mem sa hx))
    exact ⟨r1 ++ r2, by rw [emitsAll, h1, h2]⟩

theorem emitsAll_ok_length (n : String) : ∀ (td : List (List String × List String))
    (res : List String), emitsAll n td = .ok res → res.length = countPos td n := by
  intro td
  induction td with
  | nil =>
    intro res h
    obtain rfl : [] = res := by simpa [emitsAll] using h
    simp [countPos]
  | cons sa rest ih =>
    intro res h
    rw [emitsAll] at h
    rcases h1 : emitsFor n sa.2 sa.1 with e | r1 <;> rw [h1] at h
    · exact absurd h (by simp)
    rcases h2 : emitsAll n rest with e | r2 <;> rw [h2] at h
    · exact absurd h (by simp)
    obtain rfl : r1 ++ r2 = res := by simpa using h
    simp [countPos, emitsFor_ok_length n sa.2 sa.1 r1 h1, ih r2 h2]

theorem emitsAll_ok_count (n : String) : ∀ (td : List (List String × List String))
    (res : List String) (_ : ∀ sa ∈ td, sa.2.length ≤ sa.1.length)
    (_ : emitsAll n td = .ok res) (o : String),
    res.count o = countEmit td n o := by
  intro td
  induction td with
  | nil =>
    intro res _ h o
    obtain rfl : [] = res := by simpa [emitsAll] using h
    simp [countEmit]
  | cons sa rest ih =>
    intro res hlen h o
    rw [emitsAll] at h
    rcases h1 : emitsFor n sa.2 sa.1 with e | r1 <;> rw [h1] at h
    · exact absurd h (by simp)
    rcases h2 : emitsAll n rest with e | r2 <;> rw [h2] at h
    · exact absurd h (by simp)
    obtain rfl : r1 ++ r2 = res := by simpa using h
    rw [List.count_append]
    rw [emitsFor_ok_count n sa.2 sa.1 r1 (hlen sa (List.mem_cons_self sa rest)) h1 o,
      ih r2 (fun x hx => hlen x (List.mem_cons_of_mem sa hx)) h2 o]
    simp [countEmit]


theorem transTargets_length (n : String) : ∀ ls : List String,
    (transTargets n ls).length = ls.dropLast.count n := by
  intro ls
  induction ls with
  | nil => simp [transTargets]
  | cons l ls' ih =>
    cases ls' with
    | nil => simp [transTargets]
    | cons l2 t =>
      rw [show transTargets n (l :: l2 :: t) =
        (if l = n then l2 :: transTargets n (l2 :: t) else transTargets n (l2 :: t)) from rfl]
      rw [show (l :: l2 :: t).dropLast = l :: (l2 :: t).dropLast from rfl]
      by_cases hl : l = n
      · simp [hl, ih, List.count_cons]
      · simp [hl, ih, List.count_cons]

theorem transTargets_count (n n2 : String) : ∀ ls : List String,
    (transTargets n ls).count n2 =
      (ls.zip ls.tail).countP (fun p => decide (p.1 = n ∧ p.2 = n2)) := by
  intro ls
  induction ls with
  | nil => simp [transTargets]
  | cons l ls' ih =>
    cases ls' with
    | nil => simp [transTargets]
    | cons l2 t =>
      rw [show transTargets n (l :: l2 :: t) =
        (if l = n then l2 :: transTargets n (l2 :: t) else transTargets n (l2 :: t)) from rfl]
      rw [show (l :: l2 :: t).zip (l :: l2 :: t).tail = (l, l2) :: ((l2 :: t).zip (l2 :: t).tail) from rfl]
      rw [List.countP_cons]
      by_cases hl : l = n
      · rw [if_pos hl, List.count_cons, ih, List.tail_cons]
        by_cases h2 : l2 = n2 <;> simp [hl, h2, Nat.add_comm]
      · rw [if_neg hl, ih, List.tail_cons]
        simp [hl]

theorem transAll_length (n : String) (td : List (List String × List String)) :
    (transAll n td).length = countNonFinal td n := by
  induction td with
  | nil => simp [transAll, countNonFinal]
  | cons sa rest ih =>
    rw [show transAll n (sa :: rest) = transTargets n sa.2 ++ transAll n rest from rfl]
    simp [transTargets_length, ih, countNonFinal]

theorem transAll_count (n n2 : String) (td : List (List String × List String)) :
    (transAll n td).count n2 = countPair td n n2 := by
  induction td with
  | nil => simp [transAll, countPair]
  | cons sa rest ih =>
    rw [show transAll n (sa :: rest) = transTargets n sa.2 ++ transAll n rest from rfl]
    simp [List.count_append, transTargets_count, ih, countPair]

theorem termCount_ok (n : String) (td : List (List String × List String))
    (h : ∀ sa ∈ td, sa.2 ≠ []) :
    termCount n td = .ok (countLast td n) := by
  induction td with
  | nil => simp [termCount, countLast]
  | cons sa rest ih =>
    rcases hsa : sa.2 with _ | ⟨y, t⟩
    · exact absurd hsa (h sa (List.mem_cons_self sa rest))
    have hlast : lastStr sa.2 = sa.2.getLast? := lastStr_eq_getLast? sa.2
    rw [termCount]
    rcases hgl : lastStr sa.2 with _ | lk
    · rw [hlast, hsa] at hgl
      simp at hgl
    rw [ih (fun x hx => h x (List.mem_cons_of_mem sa hx))]
    dsimp only []
    have hgl2 : sa.2.getLast? = some lk := by rw [← hlast, hgl]
    rw [countLast, countLast, List.countP_cons]
    by_cases hk : lk = n
    · simp [hgl2, hk, Nat.add_comm]
    · simp [hgl2, hk]

theorem termCount_ok_nonempty (n : String) (td : List (List String × List String))
    (c : Nat) (h : termCount n td = .ok c) : ∀ sa ∈ td, sa.2 ≠ [] := by
  induction td generalizing c with
  | nil => simp
  | cons sa rest ih =>
    rw [termCount] at h
    rcases hgl : lastStr sa.2 with _ | lk <;> rw [hgl] at h
    · exact absurd h (by simp)
    rcases hr : termCount n rest with e | c2 <;> rw [hr] at h
    · exact absurd h (by simp)
    intro x hx
    rcases List.mem_cons.mp hx with rfl | hx2
    · intro hemp
      rw [hemp] at hgl
      simp [lastStr] at hgl
    · exact ih c2 hr x hx2


theorem dictInsert_fresh {α : Type} (d : List (String × α)) (k : String) (v : α)
    (h : ¬ k ∈ d.map Prod.fst) : dictInsert d k v = d ++ [(k, v)] := by
  induction d with
  | nil => rfl
  | cons p rest ih =>
    have hk : ¬ p.1 = k := by
      intro he
      exact h (by simp [he])
    obtain ⟨k', v'⟩ := p
    rw [show dictInsert ((k', v') :: rest) k v =
      (if k' = k then (k, v) :: rest else (k', v') :: dictInsert rest k v) from rfl,
      if_neg hk, ih (fun hm => h (by simp [hm]))]
    simp

theorem mkHmm_foldl_states : ∀ (sts : List state) (m0 : hmm),
    (∀ st ∈ sts, ¬ st.name ∈ m0.states.map Prod.fst) →
    (sts.map (fun st => st.name)).Nodup →
    (sts.foldl hmmStep m0).states = m0.states ++ sts.map (fun st => (st.name, st)) := by
  intro sts
  induction sts with
  | nil => intro m0 _ _; simp
  | cons st rest ih =>
    intro m0 hfresh hnd
    rw [List.foldl_cons]
    have hstep : (hmmStep m0 st).states = m0.states ++ [(st.name, st)] := by
      rw [hmmStep]
      exact dictInsert_fresh m0.states st.name st (hfresh st (List.mem_cons_self st rest))
    have hfresh2 : ∀ s2 ∈ rest, ¬ s2.name ∈ (hmmStep m0 st).states.map Prod.fst := by
      intro s2 hs2 hmem
      rw [hstep] at hmem
      simp only [List.map_append, List.mem_append] at hmem
      rcases hmem with hmem | hmem
      · exact hfresh s2 (List.mem_cons_of_mem st hs2) hmem
      · simp only [List.map_cons, List.map_nil, List.mem_singleton] at hmem
        rw [List.map_cons, List.nodup_cons] at hnd
        exact hnd.1 (hmem ▸ List.mem_map_of_mem (fun s => s.name) hs2)
    have hnd2 : (rest.map (fun s => s.name)).Nodup := by
      rw [List.map_cons, List.nodup_cons] at hnd
      exact hnd.2
    rw [ih (hmmStep m0 st) hfresh2 hnd2, hstep]
    simp

theorem mkHmm_states (a : List String) (sts : List state)
    (hnd : (sts.map (fun st => st.name)).Nodup) :
    (mkHmm a sts).states = sts.map (fun st => (st.name, st)) := by
  rw [mkHmm, mkHmm_foldl_states sts _ (by simp) hnd]
  simp

theorem buildStates_forall (td : List (List String × List String)) (flag : Bool)
    (heads : List String) : ∀ (ns : List String) (sts : List state),
    buildStates td flag heads ns = .ok sts →
    List.Forall₂ (fun n st => buildState td flag heads n = .ok st) ns sts := by
  intro ns
  induction ns with
  | nil =>
    intro sts h
    obtain rfl : [] = sts := by simpa [buildStates] using h
    exact List.Forall₂.nil
  | cons n rest ih =>
    intro sts h
    rw [buildStates] at h
    rcases h1 : buildState td flag heads n with e | st <;> rw [h1] at h
    · exact absurd h (by simp)
    rcases h2 : buildStates td flag heads rest with e | sts2 <;> rw [h2] at h
    · exact absurd h (by simp)
    obtain rfl : st :: sts2 = sts := by simpa using h
    exact List.Forall₂.cons h1 (ih sts2 h2)

theorem buildStates_ok_exists (td : List (List String × List String)) (flag : Bool)
    (heads : List String) : ∀ ns : List String,
    (∀ n ∈ ns, ∃ st, buildState td flag heads n = .ok st) →
    ∃ sts, buildStates td flag heads ns = .ok sts := by
  intro ns
  induction ns with
  | nil => intro _; exact ⟨[], rfl⟩
  | cons n rest ih =>
    intro h
    obtain ⟨st, hst⟩ := h n (List.mem_cons_self n rest)
    obtain ⟨sts2, hsts⟩ := ih (fun x hx => h x (List.mem_cons_of_mem n hx))
    exact ⟨st :: sts2, by rw [buildStates, hst, hsts]⟩


theorem buildState_false_elim (td : List (List String × List String))
    (heads : List String) (n : String) (st : state)
    (h : buildState td false heads n = .ok st) :
    ∃ emitted, emitsAll n td = .ok emitted ∧
      st = { name := n
             p_initial := (dictCount (countsList heads) n : ℚ) / (td.length : ℚ)
             p_emission := (countsList emitted).map
               (fun p => (p.1, (p.2 : ℚ) / (emitted.length : ℚ)))
             p_transition := (countsList (transAll n td)).map
               (fun p => (p.1, (p.2 : ℚ) / ((transAll n td).length : ℚ)))
             p_termination := 0 } := by
  rw [buildState] at h
  rcases h1 : emitsAll n td with e | emitted <;> rw [h1] at h
  · exact absurd h (by simp)
  simp only [Bool.false_eq_true, reduceIte] at h
  refine ⟨emitted, rfl, ?_⟩
  have h2 := (by simpa using h : _ = st)
  rw [← h2]
  try push_cast
  try rfl

theorem buildState_true_elim (td : List (List String × List String))
    (heads : List String) (n : String) (st : state)
    (h : buildState td true heads n = .ok st) :
    ∃ emitted term, emitsAll n td = .ok emitted ∧ termCount n td = .ok term ∧
      (transAll n td).length + term ≠ 0 ∧
      st = { name := n
             p_initial := (dictCount (countsList heads) n : ℚ) / (td.length : ℚ)
             p_emission := (countsList emitted).map
               (fun p => (p.1, (p.2 : ℚ) / (emitted.length : ℚ)))
             p_transition := (countsList (transAll n td)).map
               (fun p => (p.1, (p.2 : ℚ) / (((transAll n td).length + term : Nat) : ℚ)))
             p_termination := (term : ℚ) / (((transAll n td).length + term : Nat) : ℚ) } := by
  rw [buildState] at h
  rcases h1 : emitsAll n td with e | emitted <;> rw [h1] at h
  · exact absurd h (by simp)
  simp only [reduceIte] at h
  rcases h2 : termCount n td with e | term <;> rw [h2] at h
  · exact absurd h (by simp)
  dsimp only [] at h
  by_cases hz : (transAll n td).length + term = 0
  · rw [if_pos hz] at h
    exact absurd h (by simp)
  · rw [if_neg hz] at h
    refine ⟨emitted, term, rfl, rfl, hz, ?_⟩
    have h3 := (by simpa using h : _ = st)
    rw [← h3]
    try push_cast
    try rfl

theorem buildState_false_exists (td : List (List String × List String))
    (heads : List String) (n : String)
    (hlen : ∀ sa ∈ td, sa.2.length ≤ sa.1.length) :
    ∃ st, buildState td false heads n = .ok st := by
  obtain ⟨emitted, hem⟩ := emitsAll_ok_exists n td hlen
  rw [buildState, hem]
  simp only [Bool.false_eq_true, reduceIte]
  exact ⟨_, rfl⟩

theorem buildState_true_exists (td : List (List String × List String))
    (heads : List String) (n : String)
    (hlen : ∀ sa ∈ td, sa.2.length ≤ sa.1.length)
    (hne : ∀ sa ∈ td, sa.2 ≠ [])
    (hnz : denomD td true n ≠ 0) :
    ∃ st, buildState td true heads n = .ok st := by
  obtain ⟨emitted, hem⟩ := emitsAll_ok_exists n td hlen
  rw [buildState, hem]
  simp only [reduceIte]
  rw [termCount_ok n td hne]
  dsimp only []
  have hz : (transAll n td).length + countLast td n ≠ 0 := by
    rw [transAll_length]
    rw [denomD, if_pos rfl] at hnz
    exact hnz
  rw [if_neg hz]
  exact ⟨_, rfl⟩


theorem sum_map_add {α : Type} (l : List α) (f g : α → ℚ) :
    (l.map (fun x => f x + g x)).sum = (l.map f).sum + (l.map g).sum := by
  induction l with
  | nil => simp
  | cons x xs ih => simp [ih]; ring

theorem sum_map_div {α : Type} (l : List α) (f : α → ℚ) (c : ℚ) :
    (l.map (fun x => f x / c)).sum = (l.map f).sum / c := by
  induction l with
  | nil => simp
  | cons x xs ih => simp [ih, add_div]

theorem sum_map_natCast {α : Type} (l : List α) (f : α → Nat) :
    (l.map (fun x => (f x : ℚ))).sum = ((l.map f).sum : ℚ) := by
  induction l with
  | nil => simp
  | cons x xs ih => simp [ih]

theorem sum_ite_single (h : String) : ∀ names : List String,
    names.Nodup → h ∈ names →
    (names.map (fun n => if n = h then (1 : Nat) else 0)).sum = 1 := by
  intro names
  induction names with
  | nil => simp
  | cons m rest ih =>
    intro hnd hmem
    rw [List.nodup_cons] at hnd
    by_cases hm : m = h
    · subst hm
      have hz : (rest.map (fun x => if x = m then (1 : Nat) else 0)).sum = 0 := by
        rw [List.sum_eq_zero]
        intro x hx
        simp only [List.mem_map] at hx
        obtain ⟨y, hy, hxy⟩ := hx
        have hyn : ¬ y = m := fun he => hnd.1 (he ▸ hy)
        rw [← hxy, if_neg hyn]
      simp [hz]
    · have hmem2 : h ∈ rest := by
        rcases List.mem_cons.mp hmem with he | h2
        · exact absurd he.symm hm
        · exact h2
      simp [hm, ih hnd.2 hmem2]

theorem sum_counts (names : List String) (hnd : names.Nodup) :
    ∀ heads : List String, (∀ x ∈ heads, x ∈ names) →
    (names.map (fun n => heads.count n)).sum = heads.length := by
  intro heads
  induction heads with
  | nil => intro _; simp
  | cons h t ih =>
    intro hmem
    have h1 : (names.map (fun n => (h :: t).count n)) =
        (names.map (fun n => t.count n + if n = h then 1 else 0)) := by
      apply List.map_congr_left
      intro n _
      rw [List.count_cons]
      by_cases hn : n = h
      · subst hn; simp
      · have hbn : ¬ (h == n) = true := by
          simp only [beq_iff_eq]
          exact fun he => hn he.symm
        rw [if_neg hbn, if_neg hn]
    rw [h1]
    have h2 : (names.map (fun n => t.count n + if n = h then 1 else 0)).sum =
        (names.map (fun n => t.count n)).sum +
          (names.map (fun n => if n = h then (1 : Nat) else 0)).sum := by
      induction names with
      | nil => simp
      | cons m rest ihn => simp [ihn]; omega
    rw [h2, ih (fun x hx => hmem x (List.mem_cons_of_mem h hx)),
      sum_ite_single h names hnd (hmem h (List.mem_cons_self h t))]
    simp [Nat.add_comm]

theorem forall₂_mem_right {R : String → state → Prop} :
    ∀ {ns : List String} {sts : List state},
    List.Forall₂ R ns sts → ∀ st ∈ sts, ∃ n ∈ ns, R n st := by
  intro ns sts h
  induction h with
  | nil => simp
  | cons hr _ ih =>
    intro st hst
    rcases List.mem_cons.mp hst with rfl | hst2
    · exact ⟨_, List.mem_cons_self _ _, hr⟩
    · obtain ⟨n, hn, hrn⟩ := ih st hst2
      exact ⟨n, List.mem_cons_of_mem _ hn, hrn⟩

theorem forall₂_map_eq {f : String → ℚ} {g : state → ℚ} :
    ∀ {ns : List String} {sts : List state},
    List.Forall₂ (fun n st => g st = f n) ns sts → sts.map g = ns.map f := by
  intro ns sts h
  induction h with
  | nil => rfl
  | cons hr _ ih => simp [hr, ih]

theorem dedupConcat_mem (f : (List String × List String) → List String) :
    ∀ (td : List (List String × List String)) (x : String),
    x ∈ dedupConcat f td ↔ ∃ sa ∈ td, x ∈ f sa := by
  intro td x
  induction td with
  | nil => simp [dedupConcat]
  | cons sa rest ih =>
    rw [show dedupConcat f (sa :: rest) = (f sa).dedup ++ dedupConcat f rest from rfl]
    simp [List.mem_append, List.mem_dedup, ih]

theorem mem_dropLast_or_getLast : ∀ (l : List String) (x : String), x ∈ l →
    x ∈ l.dropLast ∨ l.getLast? = some x := by
  intro l
  induction l with
  | nil => simp
  | cons a rest ih =>
    intro x hx
    cases rest with
    | nil =>
      rcases List.mem_cons.mp hx with rfl | hx2
      · right; rfl
      · simp at hx2
    | cons b t =>
      rcases List.mem_cons.mp hx with rfl | hx2
      · left
        rw [List.dropLast_cons₂]
        exact List.mem_cons_self _ _
      · rcases ih x hx2 with hm | hm
        · left
          rw [List.dropLast_cons₂]
          exact List.mem_cons_of_mem _ hm
        · right
          rw [List.getLast?_cons_cons]
          exact hm

theorem occurs_countPos_pos (td : List (List String × List String)) (n : String)
    (h : ∃ sa ∈ td, n ∈ sa.2) : countPos td n ≠ 0 := by
  obtain ⟨sa, hsa, hn⟩ := h
  have h1 : 0 < sa.2.count n := List.count_pos_iff.mpr hn
  have h2 : sa.2.count n ≤ countPos td n := by
    rw [countPos]
    exact List.single_le_sum (fun x _ => Nat.zero_le x)
      (sa.2.count n) (List.mem_map_of_mem (fun sb => sb.2.count n) hsa)
  omega

theorem occurs_denom_pos (td : List (List String × List String)) (n : String)
    (h : ∃ sa ∈ td, n ∈ sa.2) : denomD td true n ≠ 0 := by
  obtain ⟨sa, hsa, hn⟩ := h
  rcases mem_dropLast_or_getLast sa.2 n hn with hm | hm
  · have h1 : 0 < sa.2.dropLast.count n := List.count_pos_iff.mpr hm
    have h2 : sa.2.dropLast.count n ≤ countNonFinal td n := by
      rw [countNonFinal]
      exact List.single_le_sum (fun x _ => Nat.zero_le x)
        (sa.2.dropLast.count n) (List.mem_map_of_mem (fun sb => sb.2.dropLast.count n) hsa)
    rw [denomD]
    simp only [reduceIte]
    omega
  · have h1 : 0 < countLast td n := by
      rw [countLast, List.countP_pos]
      exact ⟨sa, hsa, by simp [hm]⟩
    rw [denomD]
    simp only [reduceIte]
    omega


theorem buildState_ok_name (td : List (List String × List String)) (flag : Bool)
    (heads : List String) (n : String) (st : state)
    (h : buildState td flag heads n = .ok st) : st.name = n := by
  cases flag
  · obtain ⟨em, _, hst⟩ := buildState_false_elim td heads n st h
    rw [hst]
  · obtain ⟨em, term, _, _, _, hst⟩ := buildState_true_elim td heads n st h
    rw [hst]

theorem term_eq_countLast (td : List (List String × List String)) (n : String)
    (term : Nat) (hne : ∀ sa ∈ td, sa.2 ≠ [])
    (h : termCount n td = .ok term) : term = countLast td n := by
  rw [termCount_ok n td hne] at h
  injection h with h2
  exact h2.symm

theorem buildState_formulas (td : List (List String × List String)) (flag : Bool)
    (heads : List String) (n : String) (st : state)
    (hlen : ∀ sa ∈ td, sa.2.length ≤ sa.1.length)
    (hnel : ∀ sa ∈ td, sa.2 ≠ [])
    (hh : headsOf td = .ok heads)
    (hb : buildState td flag heads n = .ok st) :
    st.name = n ∧
    st.p_initial = (countFirst td n : ℚ) / (td.length : ℚ) ∧
    (∀ o, (alookup st.p_emission o).getD 0 =
      (countEmit td n o : ℚ) / (countPos td n : ℚ)) ∧
    (∀ n2, (alookup st.p_transition n2).getD 0 =
      (countPair td n n2 : ℚ) / (denomD td flag n : ℚ)) ∧
    st.p_termination =
      (if flag then (countLast td n : ℚ) / (denomD td flag n : ℚ) else 0) := by
  obtain ⟨hcnt, hlenh, hmemh⟩ := headsOf_ok_counts td heads hh
  have hinit : (dictCount (countsList heads) n : ℚ) = (countFirst td n : ℚ) := by
    rw [dictCount_eq_count, hcnt n]
  have demit : ∀ (emitted : List String), emitsAll n td = .ok emitted →
      ∀ o, (alookup ((countsList emitted).map
          (fun p => (p.1, (p.2 : ℚ) / (emitted.length : ℚ)))) o).getD 0 =
        (countEmit td n o : ℚ) / (countPos td n : ℚ) := by
    intro emitted hem o
    rw [alookup_map_val (countsList emitted)
      (fun v => ((v : Nat) : ℚ) / (emitted.length : ℚ)) o, countsList_alookup]
    by_cases hz : emitted.count o = 0
    · rw [if_pos hz]
      have : countEmit td n o = 0 := by
        rw [← emitsAll_ok_count n td emitted hlen hem o, hz]
      simp [this]
    · rw [if_neg hz]
      rw [emitsAll_ok_count n td emitted hlen hem o,
        emitsAll_ok_length n td emitted hem]
      simp
  have dtran : ∀ (dn : Nat), dn = denomD td flag n →
      ∀ n2, (alookup ((countsList (transAll n td)).map
          (fun p => (p.1, (p.2 : ℚ) / (dn : ℚ)))) n2).getD 0 =
        (countPair td n n2 : ℚ) / (denomD td flag n : ℚ) := by
    intro dn hdn n2
    rw [alookup_map_val (countsList (transAll n td))
      (fun v => ((v : Nat) : ℚ) / (dn : ℚ)) n2, countsList_alookup]
    by_cases hz : (transAll n td).count n2 = 0
    · rw [if_pos hz]
      have : countPair td n n2 = 0 := by rw [← transAll_count n n2 td, hz]
      simp [this]
    · rw [if_neg hz]
      rw [transAll_count n n2 td, hdn]
      simp
  cases flag
  · obtain ⟨emitted, hem, hst⟩ := buildState_false_elim td heads n st hb
    subst hst
    refine ⟨rfl, by rw [hinit], demit emitted hem, ?_, by simp⟩
    intro n2
    have := dtran (transAll n td).length (by rw [transAll_length, denomD]; simp) n2
    simpa using this
  · obtain ⟨emitted, term, hem, hterm, hnz, hst⟩ := buildState_true_elim td heads n st hb
    have hteq : term = countLast td n := term_eq_countLast td n term hnel hterm
    subst hst
    subst hteq
    have hdeq : (transAll n td).length + countLast td n = denomD td true n := by
      rw [transAll_length, denomD]
      simp
    refine ⟨rfl, by rw [hinit], demit emitted hem, ?_, ?_⟩
    · intro n2
      have := dtran ((transAll n td).length + countLast td n) hdeq n2
      simpa using this
    · simp only [reduceIte]
      rw [← hdeq]
      try push_cast
      try rfl


theorem train_hmm_ok_elim (td : List (List String × List String)) (flag : Bool)
    (M : hmm) (h : train_hmm td flag = .ok M) :
    ∃ heads sts, headsOf td = .ok heads ∧
      buildStates td flag heads ((dedupConcat (fun sa => sa.2) td).dedup) = .ok sts ∧
      M = mkHmm ((dedupConcat (fun sa => sa.1) td).dedup) sts := by
  rw [train_hmm] at h
  rcases h1 : headsOf td with e | heads <;> rw [h1] at h
  · exact absurd h (by simp)
  dsimp only [] at h
  rcases h2 : buildStates td flag heads ((dedupConcat (fun sa => sa.2) td).dedup)
    with e | sts <;> rw [h2] at h
  · exact absurd h (by simp)
  refine ⟨heads, sts, rfl, h2, ?_⟩
  injection h with h3
  exact h3.symm

theorem train_hmm_ok_exists (td : List (List String × List String)) (flag : Bool)
    (hne : ∀ sa ∈ td, sa.2 ≠ [])
    (hlen : ∀ sa ∈ td, sa.2.length ≤ sa.1.length) :
    ∃ M, train_hmm td flag = .ok M := by
  obtain ⟨heads, hh, _⟩ := headsOf_ok td hne
  have hex : ∀ n ∈ (dedupConcat (fun sa => sa.2) td).dedup,
      ∃ st, buildState td flag heads n = .ok st := by
    intro n hn
    cases flag
    · exact buildState_false_exists td heads n hlen
    · refine buildState_true_exists td heads n hlen hne ?_
      apply occurs_denom_pos
      rw [List.mem_dedup, dedupConcat_mem] at hn
      exact hn
  obtain ⟨sts, hsts⟩ := buildStates_ok_exists td flag heads _ hex
  refine ⟨mkHmm ((dedupConcat (fun sa => sa.1) td).dedup) sts, ?_⟩
  rw [train_hmm, hh]
  dsimp only []
  rw [hsts]

theorem forall₂_name_map : ∀ {ns : List String} {sts : List state},
    List.Forall₂ (fun n st => st.name = n) ns sts →
    sts.map (fun st => st.name) = ns := by
  intro ns sts h
  induction h with
  | nil => rfl
  | cons hr _ ih => simp [hr, ih]

theorem train_pair_elim (td : List (List String × List String)) (flag : Bool)
    (M : hmm) (n : String) (st : state)
    (h : train_hmm td flag = .ok M) (hmem : (n, st) ∈ M.states) :
    n ∈ (dedupConcat (fun sa => sa.2) td).dedup ∧
      ∃ heads, headsOf td = .ok heads ∧ buildState td flag heads n = .ok st := by
  obtain ⟨heads, sts, hh, hbs, hM⟩ := train_hmm_ok_elim td flag M h
  have hf := buildStates_forall td flag heads _ sts hbs
  have hnames : sts.map (fun st => st.name) = (dedupConcat (fun sa => sa.2) td).dedup := by
    apply forall₂_name_map
    refine List.Forall₂.imp ?_ hf
    intro a b hab
    exact buildState_ok_name td flag heads a b hab
  have hnd : (sts.map (fun st => st.name)).Nodup := by
    rw [hnames]
    exact List.nodup_dedup _
  rw [hM, mkHmm_states _ sts hnd] at hmem
  simp only [List.mem_map] at hmem
  obtain ⟨st', hst', heq⟩ := hmem
  have hn2 : st'.name = n := by
    have := congrArg Prod.fst heq
    simpa using this
  have hs2 : st' = st := by
    have := congrArg Prod.snd heq
    simpa using this
  obtain ⟨n', hn', hb⟩ := forall₂_mem_right hf st' hst'
  have hname : st'.name = n' := buildState_ok_name td flag heads n' st' hb
  rw [hname] at hn2
  subst hn2
  rw [hs2] at hb
  exact ⟨hn', heads, hh, hb⟩


theorem train_struct (td : List (List String × List String)) (flag : Bool)
    (M : hmm) (h : train_hmm td flag = .ok M) :
    ∃ heads sts, headsOf td = .ok heads ∧
      List.Forall₂ (fun n st => buildState td flag heads n = .ok st)
        ((dedupConcat (fun sa => sa.2) td).dedup) sts ∧
      M.states = sts.map (fun st => (st.name, st)) := by
  obtain ⟨heads, sts, hh, hbs, hM⟩ := train_hmm_ok_elim td flag M h
  have hf := buildStates_forall td flag heads _ sts hbs
  have hnames : sts.map (fun st => st.name) = (dedupConcat (fun sa => sa.2) td).dedup := by
    apply forall₂_name_map
    refine List.Forall₂.imp ?_ hf
    intro a b hab
    exact buildState_ok_name td flag heads a b hab
  have hnd : (sts.map (fun st => st.name)).Nodup := by
    rw [hnames]
    exact List.nodup_dedup _
  exact ⟨heads, sts, hh, hf, by rw [hM, mkHmm_states _ sts hnd]⟩

theorem buildState_ok_initial (td : List (List String × List String)) (flag : Bool)
    (heads : List String) (n : String) (st : state)
    (h : buildState td flag heads n = .ok st) :
    st.p_initial = (heads.count n : ℚ) / (td.length : ℚ) := by
  cases flag
  · obtain ⟨em, _, hst⟩ := buildState_false_elim td heads n st h
    rw [hst]
    simp [dictCount_eq_count]
  · obtain ⟨em, term, _, _, _, hst⟩ := buildState_true_elim td heads n st h
    rw [hst]
    simp [dictCount_eq_count]

/-- C9 — distribution invariants of trained models, in exact rational
arithmetic: `p_initial` sums to 1 over the states; each state's
`p_emission` sums to 1; and for each state whose transition denominator
is positive, its outgoing `p_transition` values plus `p_termination`
sum to 1. -/
theorem trained_distributions_sum_one (td : List (List String × List String))
    (flag : Bool) (M : hmm) (hne : td ≠ []) (h : train_hmm td flag = .ok M) :
    ((M.states.map (fun p => p.2.p_initial)).sum = 1) ∧
    (∀ p ∈ M.states, ((p.2.p_emission.map (fun q => q.2)).sum = 1)) ∧
    (∀ p ∈ M.states, denomD td flag p.1 ≠ 0 →
      (p.2.p_transition.map (fun q => q.2)).sum + p.2.p_termination = 1) := by
  obtain ⟨heads, sts, hh, hf, hMs⟩ := train_struct td flag M h
  obtain ⟨hcnt, hlenh, hmemh⟩ := headsOf_ok_counts td heads hh
  have hNnz : ((td.length : ℚ)) ≠ 0 := by
    have : td.length ≠ 0 := by
      intro hz
      exact hne (List.length_eq_zero.mp hz)
    exact_mod_cast this
  refine ⟨?_, ?_, ?_⟩
  · rw [hMs, List.map_map]
    have hmap : (sts.map (fun st => st.p_initial)) =
        ((dedupConcat (fun sa => sa.2) td).dedup).map
          (fun n => (heads.count n : ℚ) / (td.length : ℚ)) := by
      apply forall₂_map_eq
      refine List.Forall₂.imp ?_ hf
      intro a b hab
      exact buildState_ok_initial td flag heads a b hab
    have hcomp : (sts.map (fun x => ((fun p => p.2.p_initial) ∘ fun st => (st.name, st)) x)) =
        (sts.map (fun st => st.p_initial)) := by
      apply List.map_congr_left
      intro x _
      rfl
    rw [hcomp, hmap]
    rw [show ((dedupConcat (fun sa => sa.2) td).dedup).map
          (fun n => (heads.count n : ℚ) / (td.length : ℚ)) =
        ((dedupConcat (fun sa => sa.2) td).dedup).map
          (fun n => ((fun m => ((heads.count m : Nat) : ℚ)) n) / (td.length : ℚ)) from rfl]
    rw [sum_map_div, sum_map_natCast, sum_counts _ (List.nodup_dedup _) heads ?hmem]
    · rw [hlenh]
      exact div_self hNnz
    · intro x hx
      rw [List.mem_dedup, dedupConcat_mem]
      exact hmemh x hx
  · intro p hp
    rw [hMs] at hp
    simp only [List.mem_map] at hp
    obtain ⟨st, hst, rfl⟩ := hp
    obtain ⟨n, hn, hb⟩ := forall₂_mem_right hf st hst
    have hocc : ∃ sa ∈ td, n ∈ sa.2 := by
      rw [List.mem_dedup, dedupConcat_mem] at hn
      exact hn
    have hem2 : ∀ (emitted : List String), emitsAll n td = .ok emitted →
        ((((countsList emitted).map
            (fun q => (q.1, (q.2 : ℚ) / (emitted.length : ℚ)))).map
          (fun q => q.2)).sum = 1) := by
      intro emitted hem
      have hlen2 : emitted.length = countPos td n := emitsAll_ok_length n td emitted hem
      have hpz : (emitted.length : ℚ) ≠ 0 := by
        rw [hlen2]
        exact_mod_cast occurs_countPos_pos td n hocc
      rw [List.map_map]
      rw [show ((countsList emitted).map
            (fun x => ((fun q => q.2) ∘ fun q => (q.1, (q.2 : ℚ) / (emitted.length : ℚ))) x)) =
          ((countsList emitted).map
            (fun q => ((fun v => ((v.2 : Nat) : ℚ)) q) / (emitted.length : ℚ))) from rfl]
      rw [sum_map_div]
      rw [show ((countsList emitted).map (fun v => ((v.2 : Nat) : ℚ))) =
          ((countsList emitted).map (fun v => ((fun q => q.2) v : ℚ))) from rfl]
      rw [sum_map_natCast, countsList_sum]
      exact div_self hpz
    cases flag
    · obtain ⟨emitted, hem, hst2⟩ := buildState_false_elim td heads n st hb
      rw [hst2]
      exact hem2 emitted hem
    · obtain ⟨emitted, term, hem, _, _, hst2⟩ := buildState_true_elim td heads n st hb
      rw [hst2]
      exact hem2 emitted hem
  · intro p hp hdz
    rw [hMs] at hp
    simp only [List.mem_map] at hp
    obtain ⟨st, hst, rfl⟩ := hp
    obtain ⟨n, hn, hb⟩ := forall₂_mem_right hf st hst
    have hname : st.name = n := buildState_ok_name td flag heads n st hb
    rw [hname] at hdz ⊢
    have htr2 : ∀ (dn : Nat), (dn : ℚ) ≠ 0 →
        ((((countsList (transAll n td)).map
            (fun q => (q.1, (q.2 : ℚ) / (dn : ℚ)))).map (fun q => q.2)).sum =
          ((transAll n td).length : ℚ) / (dn : ℚ)) := by
      intro dn hdnz
      rw [List.map_map]
      rw [show ((countsList (transAll n td)).map
            (fun x => ((fun q => q.2) ∘ fun q => (q.1, (q.2 : ℚ) / (dn : ℚ))) x)) =
          ((countsList (transAll n td)).map
            (fun q => ((fun v => ((v.2 : Nat) : ℚ)) q) / (dn : ℚ))) from rfl]
      rw [sum_map_div]
      rw [show ((countsList (transAll n td)).map (fun v => ((v.2 : Nat) : ℚ))) =
          ((countsList (transAll n td)).map (fun v => ((fun q => q.2) v : ℚ))) from rfl]
      rw [sum_map_natCast, countsList_sum]
    cases flag
    · obtain ⟨emitted, hem, hst2⟩ := buildState_false_elim td heads n st hb
      have hlen3 : (transAll n td).length = denomD td false n := by
        rw [transAll_length, denomD]
        simp
      have hdnz : ((transAll n td).length : ℚ) ≠ 0 := by
        rw [hlen3]
        exact_mod_cast hdz
      rw [hst2]
      dsimp only []
      rw [htr2 (transAll n td).length hdnz]
      rw [div_self hdnz]
      simp
    · obtain ⟨emitted, term, hem, hterm, hnz, hst2⟩ := buildState_true_elim td heads n st hb
      have hdnz : (((transAll n td).length + term : Nat) : ℚ) ≠ 0 := by
        exact_mod_cast hnz
      rw [hst2]
      dsimp only []
      rw [htr2 ((transAll n td).length + term) hdnz]
      rw [div_add_div_same]
      rw [show (((transAll n td).length : ℚ) + (term : ℚ)) =
          (((transAll n td).length + term : Nat) : ℚ) by push_cast; ring]
      exact div_self hdnz


theorem trained_distributions_sum_one_witness :
    ([(["a", "b"], ["X", "Y"])] : List (List String × List String)) ≠ [] ∧
    ∃ M, train_hmm [(["a", "b"], ["X", "Y"])] false = .ok M ∧
      ((M.states.map (fun p => p.2.p_initial)).sum = 1) ∧
      (∀ p ∈ M.states, ((p.2.p_emission.map (fun q => q.2)).sum = 1)) ∧
      (∀ p ∈ M.states, denomD [(["a", "b"], ["X", "Y"])] false p.1 ≠ 0 →
        (p.2.p_transition.map (fun q => q.2)).sum + p.2.p_termination = 1) := by
  refine ⟨by simp, ?_⟩
  obtain ⟨M, hM⟩ := train_hmm_ok_exists [(["a", "b"], ["X", "Y"])] false
    (by intro sa hsa; simp only [List.mem_singleton] at hsa; subst hsa; simp)
    (by intro sa hsa; simp only [List.mem_singleton] at hsa; subst hsa; simp)
  exact ⟨M, hM,
    trained_distributions_sum_one [(["a", "b"], ["X", "Y"])] false M (by simp) hM⟩

/-- C6 counterexample — the claim quantifies over every non-empty list of
equal-length (observations, labels) pairs, but the trainer reads
`sample[1][0]` before anything else, so the equal-length pair `([], [])`
raises `IndexError` instead of returning a model. -/
theorem train_crashes_on_empty_labels :
    train_hmm [([], [])] false = .error () := rfl

/-- C6 amended — trainer parameter formulas: for every non-empty list of
(observations, labels) pairs in which each labels list is non-empty and
matches its observations list in length, `train_hmm` returns a model
whose per-state parameters are exactly the claimed counting ratios:
`p_initial` is the first-label count over the number of samples, each
emission probability is the labelled-emission count over the positions
labelled by the state, each transition probability is the adjacent-pair
count over the (flag-dependent) transition denominator, and
`p_termination` is the last-label count over that same denominator when
the terminal flag is set and `0` otherwise. -/
theorem train_parameter_formulas (td : List (List String × List String))
    (flag : Bool) (hne : td ≠ [])
    (hW : ∀ sa ∈ td, sa.2 ≠ [] ∧ sa.1.length = sa.2.length) :
    ∃ M, train_hmm td flag = .ok M ∧
      ∀ n st, (n, st) ∈ M.states →
        st.p_initial = (countFirst td n : ℚ) / (td.length : ℚ) ∧
        (∀ o, (alookup st.p_emission o).getD 0 =
          (countEmit td n o : ℚ) / (countPos td n : ℚ)) ∧
        (∀ n2, (alookup st.p_transition n2).getD 0 =
          (countPair td n n2 : ℚ) / (denomD td flag n : ℚ)) ∧
        st.p_termination =
          (if flag then (countLast td n : ℚ) / (denomD td flag n : ℚ) else 0) := by
  have hnel : ∀ sa ∈ td, sa.2 ≠ [] := fun sa hsa => (hW sa hsa).1
  have hlen : ∀ sa ∈ td, sa.2.length ≤ sa.1.length :=
    fun sa hsa => le_of_eq (hW sa hsa).2.symm
  obtain ⟨M, hM⟩ := train_hmm_ok_exists td flag hnel hlen
  refine ⟨M, hM, ?_⟩
  intro n st hmem
  obtain ⟨hn, heads, hh, hb⟩ := train_pair_elim td flag M n st hM hmem
  obtain ⟨_, h1, h2, h3, h4⟩ := buildState_formulas td flag heads n st hlen hnel hh hb
  exact ⟨h1, h2, h3, h4⟩

theorem train_parameter_formulas_witness :
    ∃ M, train_hmm [(["a", "b"], ["X", "Y"])] true = .ok M ∧
      ∀ n st, (n, st) ∈ M.states →
        st.p_initial =
          (countFirst [(["a", "b"], ["X", "Y"])] n : ℚ) /
            (([(["a", "b"], ["X", "Y"])] : List (List String × List String)).length : ℚ) ∧
        (∀ o, (alookup st.p_emission o).getD 0 =
          (countEmit [(["a", "b"], ["X", "Y"])] n o : ℚ) /
            (countPos [(["a", "b"], ["X", "Y"])] n : ℚ)) ∧
        (∀ n2, (alookup st.p_transition n2).getD 0 =
          (countPair [(["a", "b"], ["X", "Y"])] n n2 : ℚ) /
            (denomD [(["a", "b"], ["X", "Y"])] true n : ℚ)) ∧
        st.p_termination =
          (if true then
            (countLast [(["a", "b"], ["X", "Y"])] n : ℚ) /
              (denomD [(["a", "b"], ["X", "Y"])] true n : ℚ)
          else 0) :=
  train_parameter_formulas [(["a", "b"], ["X", "Y"])] true (by simp)
    (by intro sa hsa; simp only [List.mem_singleton] at hsa; subst hsa; exact ⟨by simp, rfl⟩)

theorem forall₂_alookup_states (R : String → state → Prop)
    (hname : ∀ n st, R n st → st.name = n) :
    ∀ (ns : List String) (sts : List state), List.Forall₂ R ns sts →
      ∀ n, n ∈ ns → ∃ st, alookup (sts.map (fun s => (s.name, s))) n = some st ∧ R n st := by
  intro ns sts h
  induction h with
  | nil => intro n hn; exact absurd hn (List.not_mem_nil n)
  | @cons a b l1 l2 hab hrest ih =>
    intro n hn
    rw [List.map_cons, show alookup ((b.name, b) :: l2.map (fun s => (s.name, s))) n =
      if b.name = n then some b else alookup (l2.map (fun s => (s.name, s))) n from rfl]
    by_cases hc : b.name = n
    · refine ⟨b, by rw [if_pos hc], ?_⟩
      have hbn := hname a b hab
      rw [hc] at hbn
      rw [hbn]
      exact hab
    · rw [if_neg hc]
      rcases List.mem_cons.mp hn with rfl | hn2
      · exact absurd (hname n b hab) hc
      · exact ih n hn2

/-- C7 — degenerate training: a label occurring in the training labels
but never in a non-final position (zero transition denominator with the
terminal flag off) does not crash the trainer; its state is built with
an empty outgoing transition table and zero termination probability. -/
theorem degenerate_training_no_crash (td : List (List String × List String))
    (n : String)
    (hW : ∀ sa ∈ td, sa.2 ≠ [] ∧ sa.1.length = sa.2.length)
    (hmem : ∃ sa ∈ td, n ∈ sa.2)
    (hdeg : countNonFinal td n = 0) :
    ∃ M st, train_hmm td false = .ok M ∧ alookup M.states n = some st ∧
      st.p_transition = [] ∧ st.p_termination = 0 := by
  have hnel : ∀ sa ∈ td, sa.2 ≠ [] := fun sa hsa => (hW sa hsa).1
  have hlen : ∀ sa ∈ td, sa.2.length ≤ sa.1.length :=
    fun sa hsa => le_of_eq (hW sa hsa).2.symm
  obtain ⟨M, hM⟩ := train_hmm_ok_exists td false hnel hlen
  obtain ⟨heads, sts, hh, hf, hMs⟩ := train_struct td false M hM
  have hnmem : n ∈ (dedupConcat (fun sa => sa.2) td).dedup := by
    rw [List.mem_dedup, dedupConcat_mem]
    exact hmem
  obtain ⟨st, hlk, hb⟩ := forall₂_alookup_states
    (fun m s => buildState td false heads m = .ok s)
    (fun m s hm => buildState_ok_name td false heads m s hm) _ sts hf n hnmem
  obtain ⟨emitted, hem, hst⟩ := buildState_false_elim td heads n st hb
  have htz : transAll n td = [] := by
    rw [← List.length_eq_zero, transAll_length]
    exact hdeg
  refine ⟨M, st, hM, by rw [hMs]; exact hlk, ?_, ?_⟩
  · rw [hst]
    dsimp only []
    rw [htz]
    rfl
  · rw [hst]

theorem degenerate_training_no_crash_witness :
    ∃ M st, train_hmm [(["a", "b"], ["X", "Y"])] false = .ok M ∧
      alookup M.states "Y" = some st ∧
      st.p_transition = [] ∧ st.p_termination = 0 :=
  degenerate_training_no_crash [(["a", "b"], ["X", "Y"])] "Y"
    (by intro sa hsa; simp only [List.mem_singleton] at hsa; subst hsa; exact ⟨by simp, rfl⟩)
    ⟨(["a", "b"], ["X", "Y"]), by simp, by simp⟩
    (by simp [countNonFinal])


/-! ## The last-column terminal adjustment (C5) -/

theorem adjustCell_ok (m : hmm) (n : String) (c c2 : Option ℚ)
    (h : adjustCell m n c = .ok c2) :
    (elemStr n m.terminating_states = false ∧ c2 = none) ∨
    (elemStr n m.terminating_states = true ∧
      ∃ v st, c = some v ∧ alookup m.states n = some st ∧
        0 < st.p_termination ∧ c2 = some (v * st.p_termination)) := by
  simp only [adjustCell] at h
  cases he : elemStr n m.terminating_states with
  | false =>
    rw [he] at h
    simp only [Bool.false_eq_true, reduceIte] at h
    injection h with h2
    exact .inl ⟨rfl, h2.symm⟩
  | true =>
    rw [he] at h
    simp only [reduceIte] at h
    right
    refine ⟨rfl, ?_⟩
    cases c with
    | none => exact absurd h (by simp)
    | some v =>
      cases hlk : alookup m.states n with
      | none => rw [hlk] at h; exact absurd h (by simp)
      | some st =>
        rw [hlk] at h
        dsimp only [] at h
        by_cases hp : st.p_termination ≤ 0
        · rw [if_pos hp] at h; exact absurd h (by simp)
        · rw [if_neg hp] at h
          injection h with h2
          exact ⟨v, st, rfl, rfl, lt_of_not_le hp, h2.symm⟩

theorem adjustLast_ok (m : hmm) :
    ∀ (raw adj : Column), adjustLast m raw = .ok adj →
      List.Forall₂ (fun p q => p.1 = q.1 ∧
        (elemStr p.1 m.terminating_states = false → q.2 = none) ∧
        (elemStr p.1 m.terminating_states = true →
          ∃ v st, p.2 = some v ∧ alookup m.states p.1 = some st ∧
            0 < st.p_termination ∧ q.2 = some (v * st.p_termination)))
        raw adj := by
  intro raw
  induction raw with
  | nil =>
    intro adj h
    injection h with h2
    rw [← h2]
    exact List.Forall₂.nil
  | cons p rest ih =>
    intro adj h
    obtain ⟨n, c⟩ := p
    simp only [adjustLast] at h
    cases hac : adjustCell m n c with
    | error e => simp only [hac] at h; exact absurd h (by simp)
    | ok c2 =>
      simp only [hac] at h
      cases har : adjustLast m rest with
      | error e => simp only [har] at h; exact absurd h (by simp)
      | ok cs =>
        simp only [har] at h
        injection h with h2
        rw [← h2]
        refine List.Forall₂.cons ?_ (ih cs har)
        rcases adjustCell_ok m n c c2 hac with ⟨he, hc2⟩ | ⟨he, v, st, hv, hlk, hp, hc2⟩
        · exact ⟨rfl, fun _ => hc2, fun ht => by rw [he] at ht; exact absurd ht (by simp)⟩
        · exact ⟨rfl, fun hf => by rw [he] at hf; exact absurd hf.symm (by simp),
            fun _ => ⟨v, st, hv, hlk, hp, hc2⟩⟩

theorem trellisFrom_ok_raw (m : hmm) (hterm : m.terminal_state = true) :
    ∀ (obs : List String) (prior : Column) (cols : List Column), obs ≠ [] →
      trellisFrom m prior obs = .ok cols →
      ∃ rcols lastRaw lastAdj,
        trellisRawFrom m prior obs = .ok rcols ∧
        cols.dropLast = rcols.dropLast ∧
        cols.getLast? = some lastAdj ∧
        rcols.getLast? = some lastRaw ∧
        adjustLast m lastRaw = .ok lastAdj := by
  intro obs
  induction obs with
  | nil => intro prior cols hne _; exact absurd rfl hne
  | cons o rest ih =>
    intro prior cols _ h
    simp only [trellisFrom] at h
    cases hnc : nextColumn m prior o with
    | error e => simp only [hnc] at h; exact absurd h (by simp)
    | ok raw =>
      simp only [hnc] at h
      cases rest with
      | nil =>
        simp only [List.isEmpty_nil, hterm, Bool.and_self, reduceIte] at h
        cases hal : adjustLast m raw with
        | error e => simp only [hal] at h; exact absurd h (by simp)
        | ok col =>
          simp only [hal] at h
          simp only [trellisFrom] at h
          injection h with h2
          refine ⟨[raw], raw, col, ?_, ?_, ?_, ?_, hal⟩
          · simp only [trellisRawFrom, hnc]
          · rw [← h2]; rfl
          · rw [← h2]; rfl
          · rfl
      | cons o2 rest2 =>
        simp only [List.isEmpty_cons, Bool.false_and, Bool.false_eq_true, reduceIte] at h
        cases htf : trellisFrom m raw (o2 :: rest2) with
        | error e => simp only [htf] at h; exact absurd h (by simp)
        | ok more =>
          simp only [htf] at h
          injection h with h2
          obtain ⟨rcols2, lastRaw, lastAdj, hr, hd, hga, hgr, hadj⟩ :=
            ih raw more (by simp) htf
          have hm : more ≠ [] := by
            intro hz; rw [hz] at hga; exact absurd hga (by simp)
          have hrc : rcols2 ≠ [] := by
            intro hz; rw [hz] at hgr; exact absurd hgr (by simp)
          refine ⟨raw :: rcols2, lastRaw, lastAdj, ?_, ?_, ?_, ?_, hadj⟩
          · have hstep : trellisRawFrom m prior (o :: o2 :: rest2) =
                match trellisRawFrom m raw (o2 :: rest2) with
                | .error e => (.error e : Except Unit (List Column))
                | .ok more2 => .ok (raw :: more2) := by
              simp only [trellisRawFrom, hnc]
            rw [hstep, hr]
          · rw [← h2, List.dropLast_cons_of_ne_nil hm,
              List.dropLast_cons_of_ne_nil hrc, hd]
          · rw [← h2]
            cases more with
            | nil => exact absurd rfl hm
            | cons m1 mr => rw [List.getLast?_cons_cons]; exact hga
          · cases rcols2 with
            | nil => exact absurd rfl hrc
            | cons r1 rr => rw [List.getLast?_cons_cons]; exact hgr

theorem trellis_ok_raw (m : hmm) (obs : List String) (cols : List Column)
    (hterm : m.terminal_state = true) (hne : obs ≠ [])
    (h : trellis m obs = .ok cols) :
    ∃ rcols lastRaw lastAdj,
      trellisRaw m obs = .ok rcols ∧
      cols.dropLast = rcols.dropLast ∧
      cols.getLast? = some lastAdj ∧
      rcols.getLast? = some lastRaw ∧
      adjustLast m lastRaw = .ok lastAdj := by
  cases obs with
  | nil => exact absurd rfl hne
  | cons o rest =>
    simp only [trellis] at h
    cases hfc : firstColumn m o with
    | error e => simp only [hfc] at h; exact absurd h (by simp)
    | ok raw =>
      simp only [hfc] at h
      cases rest with
      | nil =>
        simp only [List.isEmpty_nil, hterm, Bool.and_self, reduceIte] at h
        cases hal : adjustLast m raw with
        | error e => simp only [hal] at h; exact absurd h (by simp)
        | ok col =>
          simp only [hal] at h
          simp only [trellisFrom] at h
          injection h with h2
          refine ⟨[raw], raw, col, ?_, ?_, ?_, ?_, hal⟩
          · simp only [trellisRaw, trellisRawFrom, hfc]
          · rw [← h2]; rfl
          · rw [← h2]; rfl
          · rfl
      | cons o2 rest2 =>
        simp only [List.isEmpty_cons, Bool.false_and, Bool.false_eq_true, reduceIte] at h
        cases htf : trellisFrom m raw (o2 :: rest2) with
        | error e => simp only [htf] at h; exact absurd h (by simp)
        | ok more =>
          simp only [htf] at h
          injection h with h2
          obtain ⟨rcols2, lastRaw, lastAdj, hr, hd, hga, hgr, hadj⟩ :=
            trellisFrom_ok_raw m hterm (o2 :: rest2) raw more (by simp) htf
          have hm : more ≠ [] := by
            intro hz; rw [hz] at hga; exact absurd hga (by simp)
          have hrc : rcols2 ≠ [] := by
            intro hz; rw [hz] at hgr; exact absurd hgr (by simp)
          refine ⟨raw :: rcols2, lastRaw, lastAdj, ?_, ?_, ?_, ?_, hadj⟩
          · have hstep : trellisRaw m (o :: o2 :: rest2) =
                match trellisRawFrom m raw (o2 :: rest2) with
                | .error e => (.error e : Except Unit (List Column))
                | .ok more2 => .ok (raw :: more2) := by
              simp only [trellisRaw, trellisRawFrom, hfc]
            rw [hstep, hr]
          · rw [← h2, List.dropLast_cons_of_ne_nil hm,
              List.dropLast_cons_of_ne_nil hrc, hd]
          · rw [← h2]
            cases more with
            | nil => exact absurd rfl hm
            | cons m1 mr => rw [List.getLast?_cons_cons]; exact hga
          · cases rcols2 with
            | nil => exact absurd rfl hrc
            | cons r1 rr => rw [List.getLast?_cons_cons]; exact hgr

/-- C5 amended — last-column terminal adjustment, stated for the runs in
which the trellis computation actually returns: when the terminal flag
is set, the observation sequence is non-empty and `trellis` succeeds,
all columns but the last agree with the unadjusted trellis
(`trellisRaw`), and in the last column every non-terminating state's
cell is undefined while every terminating state's cell carries the
ordinary column value multiplied by that state's (positive) termination
probability — i.e. the log-domain value plus `log10 p_termination`.  The
original claim's extra case, a terminating state whose ordinary value is
undefined, does not yield an undefined adjusted cell: it raises
(`None + float` is a `TypeError`), see the counterexample. -/
theorem trellis_last_column_adjustment (m : hmm) (obs : List String)
    (cols : List Column)
    (hterm : m.terminal_state = true) (hne : obs ≠ [])
    (h : trellis m obs = .ok cols) :
    ∃ rcols lastRaw lastAdj,
      trellisRaw m obs = .ok rcols ∧
      cols.dropLast = rcols.dropLast ∧
      cols.getLast? = some lastAdj ∧
      rcols.getLast? = some lastRaw ∧
      List.Forall₂ (fun p q => p.1 = q.1 ∧
        (elemStr p.1 m.terminating_states = false → q.2 = none) ∧
        (elemStr p.1 m.terminating_states = true →
          ∃ v st, p.2 = some v ∧ alookup m.states p.1 = some st ∧
            0 < st.p_termination ∧ q.2 = some (v * st.p_termination)))
        lastRaw lastAdj := by
  obtain ⟨rcols, lastRaw, lastAdj, hr, hd, hga, hgr, hadj⟩ :=
    trellis_ok_raw m obs cols hterm hne h
  exact ⟨rcols, lastRaw, lastAdj, hr, hd, hga, hgr, adjustLast_ok m lastRaw lastAdj hadj⟩

theorem mTerm_elim : mTerm = ⟨["x"], true, ["A"], ["A"], [("A", stTerm)]⟩ := by
  simp [mTerm, mkHmm, hmmStep, stTerm, dictInsert]
  all_goals (first | norm_num | skip)

theorem trellis_last_column_adjustment_witness :
    mTerm.terminal_state = true ∧ (["x"] : List String) ≠ [] ∧
    trellis mTerm ["x"] = .ok [[("A", some ((1 : ℚ)/2))]] ∧
    ∃ rcols lastRaw lastAdj,
      trellisRaw mTerm ["x"] = .ok rcols ∧
      ([[("A", some ((1 : ℚ)/2))]] : List Column).dropLast = rcols.dropLast ∧
      ([[("A", some ((1 : ℚ)/2))]] : List Column).getLast? = some lastAdj ∧
      rcols.getLast? = some lastRaw ∧
      List.Forall₂ (fun p q => p.1 = q.1 ∧
        (elemStr p.1 mTerm.terminating_states = false → q.2 = none) ∧
        (elemStr p.1 mTerm.terminating_states = true →
          ∃ v st, p.2 = some v ∧ alookup mTerm.states p.1 = some st ∧
            0 < st.p_termination ∧ q.2 = some (v * st.p_termination)))
        lastRaw lastAdj := by
  have htr : trellis mTerm ["x"] = .ok [[("A", some ((1 : ℚ)/2))]] := by
    rw [mTerm_elim]
    all_goals (first | simp [trellis, trellisFrom, firstColumn, buildCol, firstCell,
      alookup, adjustLast, adjustCell, elemStr, stTerm] | skip)
    all_goals (first | norm_num | skip)
    all_goals (first | simp [adjustLast, adjustCell, elemStr, alookup, stTerm] | skip)
    all_goals (first | norm_num | skip)
  have hterm : mTerm.terminal_state = true := by rw [mTerm_elim]
  exact ⟨hterm, by simp, htr,
    trellis_last_column_adjustment mTerm ["x"] [[("A", some ((1 : ℚ)/2))]]
      hterm (by simp) htr⟩


/-! ## Viterbi optimality of the returned float (C1) -/

/-! ### Order toolkit for optional scores -/

/-- Python's ordering on optional floats: `None` is the bottom. -/
def optLe : Option ℚ → Option ℚ → Prop
  | none, _ => True
  | some _, none => False
  | some x, some y => x ≤ y

theorem optLe_refl (a : Option ℚ) : optLe a a := by
  cases a <;> simp [optLe]

theorem optLe_antisymm (a b : Option ℚ) (h1 : optLe a b) (h2 : optLe b a) : a = b := by
  cases a <;> cases b <;> simp_all [optLe]
  exact le_antisymm h1 h2

theorem optLe_some (a : Option ℚ) (v : ℚ) (h : optLe (some v) a) : ∃ u, a = some u := by
  cases a with
  | none => exact absurd h (by simp [optLe])
  | some u => exact ⟨u, rfl⟩

theorem le_optMax_left (a b : Option ℚ) : optLe a (optMax a b) := by
  cases a <;> cases b <;> simp [optLe, optMax]

theorem le_optMax_right (a b : Option ℚ) : optLe b (optMax a b) := by
  cases a <;> cases b <;> simp [optLe, optMax]

theorem optMax_le (a b c : Option ℚ) (h1 : optLe a c) (h2 : optLe b c) :
    optLe (optMax a b) c := by
  cases a <;> cases b <;> cases c <;> simp_all [optLe, optMax]

theorem optMax_assoc (a b c : Option ℚ) :
    optMax (optMax a b) c = optMax a (optMax b c) := by
  cases a <;> cases b <;> cases c <;> simp [optMax, max_assoc]

theorem optMax_none_right (a : Option ℚ) : optMax a none = a := by
  cases a <;> rfl

theorem bestOver_nil : bestOver [] = none := rfl

theorem bestOver_cons (x : Option ℚ) (l : List (Option ℚ)) :
    bestOver (x :: l) = optMax x (bestOver l) := rfl

theorem le_bestOver_of_mem (l : List (Option ℚ)) (a : Option ℚ) (h : a ∈ l) :
    optLe a (bestOver l) := by
  induction l with
  | nil => exact absurd h (List.not_mem_nil a)
  | cons x rest ih =>
    rw [bestOver_cons]
    rcases List.mem_cons.mp h with rfl | h2
    · exact le_optMax_left _ _
    · cases hx : bestOver rest with
      | none => cases a <;> simp_all [optLe]
      | some u =>
        have h3 := ih h2
        rw [hx] at h3
        cases x <;> cases a <;> simp_all [optLe, optMax]
        all_goals exact le_trans h3 (le_max_right _ _)

theorem bestOver_le (l : List (Option ℚ)) (c : Option ℚ)
    (h : ∀ a ∈ l, optLe a c) : optLe (bestOver l) c := by
  induction l with
  | nil => simp [bestOver_nil, optLe]
  | cons x rest ih =>
    rw [bestOver_cons]
    exact optMax_le _ _ _ (h x (by simp)) (ih (fun a ha => h a (by simp [ha])))

theorem bestOver_eq_of_mem_iff (l1 l2 : List (Option ℚ))
    (h1 : ∀ a ∈ l1, a ∈ l2) (h2 : ∀ a ∈ l2, a ∈ l1) :
    bestOver l1 = bestOver l2 :=
  optLe_antisymm _ _
    (bestOver_le _ _ (fun a ha => le_bestOver_of_mem _ a (h1 a ha)))
    (bestOver_le _ _ (fun a ha => le_bestOver_of_mem _ a (h2 a ha)))

theorem bestOver_init (l : List (Option ℚ)) (b : Option ℚ) :
    l.foldr optMax b = optMax (bestOver l) b := by
  induction l with
  | nil => rw [bestOver_nil]; rfl
  | cons x rest ih =>
    rw [List.foldr_cons, ih, bestOver_cons, optMax_assoc]

theorem bestOver_append (l1 l2 : List (Option ℚ)) :
    bestOver (l1 ++ l2) = optMax (bestOver l1) (bestOver l2) := by
  rw [bestOver, List.foldr_append]
  exact bestOver_init l1 (bestOver l2)

theorem bestOver_flatMap {α β : Type} (l : List α) (f : α → List β) (g : β → Option ℚ) :
    bestOver ((l.flatMap f).map g) =
      bestOver (l.map (fun x => bestOver ((f x).map g))) := by
  induction l with
  | nil => rfl
  | cons x rest ih =>
    rw [List.flatMap_cons, List.map_append, bestOver_append, ih,
      List.map_cons, bestOver_cons]

theorem bestOver_some_mem (l : List (Option ℚ)) (v : ℚ)
    (h : bestOver l = some v) : some v ∈ l := by
  induction l with
  | nil => exact absurd h (by simp [bestOver_nil])
  | cons x rest ih =>
    rw [bestOver_cons] at h
    cases x with
    | none =>
      rw [show optMax none (bestOver rest) = bestOver rest from rfl] at h
      exact List.mem_cons_of_mem _ (ih h)
    | some a =>
      cases hr : bestOver rest with
      | none =>
        rw [hr, optMax_none_right] at h
        exact List.mem_cons.mpr (.inl h.symm)
      | some b =>
        rw [hr, show optMax (some a) (some b) = some (max a b) from rfl] at h
        injection h with h2
        rcases max_choice a b with hm | hm
        · rw [hm] at h2
          exact List.mem_cons.mpr (.inl (by rw [h2]))
        · rw [hm] at h2
          rw [h2] at hr
          exact List.mem_cons_of_mem _ (ih hr)

theorem bestOver_none_of_all (l : List (Option ℚ))
    (h : ∀ a ∈ l, a = none) : bestOver l = none := by
  induction l with
  | nil => rfl
  | cons x rest ih =>
    rw [bestOver_cons, h x (by simp), ih (fun a ha => h a (by simp [ha]))]
    rfl

theorem omul_assoc (a b c : Option ℚ) : omul (omul a b) c = omul a (omul b c) := by
  cases a <;> cases b <;> cases c <;> simp [omul, mul_assoc]

theorem omul_some_one (a : Option ℚ) : omul a (some 1) = a := by
  cases a <;> simp [omul]

theorem omul_some_iff (a b : Option ℚ) (v : ℚ) (h : omul a b = some v) :
    ∃ x y, a = some x ∧ b = some y ∧ v = x * y := by
  cases a <;> cases b <;> simp_all [omul]
  all_goals exact h.symm

theorem optMax_omul_pos (a b : Option ℚ) (c : ℚ) (hc : 0 < c) :
    optMax (omul a (some c)) (omul b (some c)) = omul (optMax a b) (some c) := by
  cases a <;> cases b <;> simp [omul, optMax]
  all_goals rw [max_mul_of_nonneg _ _ (le_of_lt hc)]

theorem bestOver_omul_const {α : Type} (l : List α) (f : α → Option ℚ) (c : ℚ)
    (hc : 0 < c) :
    bestOver (l.map (fun x => omul (f x) (some c))) =
      omul (bestOver (l.map f)) (some c) := by
  induction l with
  | nil => rfl
  | cons x rest ih =>
    rw [List.map_cons, List.map_cons, bestOver_cons, bestOver_cons, ih,
      optMax_omul_pos _ _ _ hc]

/-! ### Membership characterizations -/

theorem alookup_nodup_mem {α : Type} (l : List (String × α))
    (hn : (l.map Prod.fst).Nodup) (n : String) (v : α) (h : (n, v) ∈ l) :
    alookup l n = some v := by
  induction l with
  | nil => exact absurd h (List.not_mem_nil _)
  | cons e rest ih =>
    obtain ⟨k, w⟩ := e
    rw [List.map_cons, List.nodup_cons] at hn
    rcases List.mem_cons.mp h with he | h2
    · injection he with h3 h4
      rw [show alookup ((k, w) :: rest) n = if k = n then some w else alookup rest n
        from rfl, if_pos h3.symm, h4]
    · have hk : k ≠ n := by
        intro hkn
        apply hn.1
        rw [hkn]
        exact List.mem_map.mpr ⟨(n, v), h2, rfl⟩
      rw [show alookup ((k, w) :: rest) n = if k = n then some w else alookup rest n
        from rfl, if_neg hk]
      exact ih hn.2 h2

theorem allStateSeqs_mem (m : hmm) :
    ∀ (L : Nat) (ss : List String), ss ∈ allStateSeqs m L ↔
      (ss.length = L ∧ ∀ s ∈ ss, s ∈ stateNames m) := by
  intro L
  induction L with
  | zero =>
    intro ss
    simp only [allStateSeqs, List.mem_singleton]
    constructor
    · intro h; subst h; simp
    · intro ⟨h1, _⟩; exact List.length_eq_zero.mp h1
  | succ n ih =>
    intro ss
    simp only [allStateSeqs, List.mem_flatMap, List.mem_map]
    constructor
    · rintro ⟨s, hs, t, ht, rfl⟩
      obtain ⟨hlen, hmem⟩ := (ih t).mp ht
      refine ⟨by simp [hlen], ?_⟩
      intro x hx
      rcases List.mem_cons.mp hx with rfl | hx2
      · exact hs
      · exact hmem x hx2
    · rintro ⟨hlen, hmem⟩
      cases ss with
      | nil => exact absurd hlen (by simp)
      | cons s t =>
        refine ⟨s, hmem s (by simp), t, (ih t).mpr ⟨by simpa using hlen, ?_⟩, rfl⟩
        intro x hx
        exact hmem x (by simp [hx])

theorem rpaths_mem (m : hmm) :
    ∀ (robs : List String) (p : List (String × String)), p ∈ rpaths m robs ↔
      (p.map Prod.snd = robs ∧ ∀ s ∈ p.map Prod.fst, s ∈ stateNames m) := by
  intro robs
  induction robs with
  | nil =>
    intro p
    simp only [rpaths, List.mem_singleton]
    constructor
    · intro h; subst h; simp
    · intro ⟨h1, _⟩
      have : p = [] := by
        cases p with
        | nil => rfl
        | cons e t => exact absurd h1 (by simp)
      exact this
  | cons o ros ih =>
    intro p
    constructor
    · intro hp
      rw [rpaths] at hp
      obtain ⟨s, hs, hp2⟩ := List.mem_flatMap.mp hp
      obtain ⟨q, hq, rfl⟩ := List.mem_map.mp hp2
      obtain ⟨h1, h2⟩ := (ih q).mp hq
      refine ⟨by rw [List.map_cons, h1], ?_⟩
      intro x hx
      rw [List.map_cons] at hx
      rcases List.mem_cons.mp hx with rfl | hx2
      · exact hs
      · exact h2 x hx2
    · rintro ⟨h1, h2⟩
      cases p with
      | nil => exact absurd h1 (by simp)
      | cons e q =>
        obtain ⟨s, o2⟩ := e
        rw [List.map_cons] at h1
        obtain ⟨ho, hq⟩ := List.cons_eq_cons.mp h1
        rw [rpaths]
        refine List.mem_flatMap.mpr ⟨s, ?_,
          List.mem_map.mpr ⟨q, (ih q).mpr ⟨hq, ?_⟩, by rw [show o2 = o from ho]⟩⟩
        · exact h2 s (by rw [List.map_cons]; exact List.mem_cons_self _ _)
        · intro x hx
          exact h2 x (by rw [List.map_cons]; exact List.mem_cons_of_mem _ hx)

theorem zip_fst_snd {α β : Type} :
    ∀ (l : List (α × β)), (l.map Prod.fst).zip (l.map Prod.snd) = l := by
  intro l
  induction l with
  | nil => rfl
  | cons e rest ih => simp [ih]

theorem zip_reverse {α β : Type} :
    ∀ (l1 : List α) (l2 : List β), l1.length = l2.length →
      (l1.reverse).zip (l2.reverse) = (l1.zip l2).reverse := by
  intro l1
  induction l1 with
  | nil => intro l2 h; simp
  | cons a t ih =>
    intro l2 h
    cases l2 with
    | nil => exact absurd h (by simp)
    | cons b u =>
      have h2 : t.length = u.length := by simpa using h
      simp only [List.reverse_cons, List.zip_cons_cons]
      rw [List.zip_append (by simp [h2]), ih u h2]
      simp


/-! ### Value bridges between forward and reversed path denotations -/

theorem chainVal_one (m : hmm) (base a oa : String) :
    chainVal m base [(a, oa)] = stepVal m base a oa := rfl

theorem chainVal_cons₂ (m : hmm) (base a oa b ob : String)
    (l : List (String × String)) :
    chainVal m base ((a, oa) :: (b, ob) :: l) =
      omul (chainVal m base ((b, ob) :: l)) (stepVal m b a oa) := rfl

theorem rpathVal_one (m : hmm) (a oa : String) :
    rpathVal m [(a, oa)] = headVal m a oa := rfl

theorem rpathVal_cons₂ (m : hmm) (a oa b ob : String) (l : List (String × String)) :
    rpathVal m ((a, oa) :: (b, ob) :: l) =
      omul (rpathVal m ((b, ob) :: l)) (stepVal m b a oa) := rfl

theorem chainVal_snoc (m : hmm) :
    ∀ (p : List (String × String)) (prev s o : String),
      chainVal m prev (p ++ [(s, o)]) = omul (stepVal m prev s o) (chainVal m s p) := by
  intro p
  induction p with
  | nil =>
    intro prev s o
    rw [List.nil_append, chainVal_one, show chainVal m s [] = some 1 from rfl,
      omul_some_one]
  | cons e rest ih =>
    intro prev s o
    obtain ⟨a, oa⟩ := e
    rw [List.cons_append]
    cases rest with
    | nil =>
      rw [List.nil_append, chainVal_cons₂, chainVal_one, chainVal_one]
    | cons e2 rest2 =>
      obtain ⟨b, ob⟩ := e2
      rw [List.cons_append, chainVal_cons₂, ← List.cons_append, ih prev s o,
        chainVal_cons₂, omul_assoc]

theorem rpathVal_snoc (m : hmm) :
    ∀ (p : List (String × String)) (s o : String),
      rpathVal m (p ++ [(s, o)]) = omul (headVal m s o) (chainVal m s p) := by
  intro p
  induction p with
  | nil =>
    intro s o
    rw [List.nil_append, rpathVal_one, show chainVal m s [] = some 1 from rfl,
      omul_some_one]
  | cons e rest ih =>
    intro s o
    obtain ⟨a, oa⟩ := e
    rw [List.cons_append]
    cases rest with
    | nil =>
      rw [List.nil_append, rpathVal_cons₂, rpathVal_one, chainVal_one]
    | cons e2 rest2 =>
      obtain ⟨b, ob⟩ := e2
      rw [List.cons_append, rpathVal_cons₂, ← List.cons_append, ih s o,
        chainVal_cons₂, omul_assoc]

theorem chainVal_fvalRest (m : hmm) :
    ∀ (ss os : List String) (prev : String), ss.length = os.length →
      chainVal m prev ((ss.zip os).reverse) = fvalRest m prev ss os := by
  intro ss
  induction ss with
  | nil =>
    intro os prev _
    rfl
  | cons s ss2 ih =>
    intro os prev hlen
    cases os with
    | nil => exact absurd hlen (by simp)
    | cons o os2 =>
      rw [List.zip_cons_cons, List.reverse_cons, chainVal_snoc,
        ih os2 s (by simpa using hlen)]
      rfl

theorem fval_rpathVal (m : hmm) (ss os : List String) (hne : ss ≠ [])
    (hlen : ss.length = os.length) :
    rpathVal m ((ss.zip os).reverse) = fval m ss os := by
  cases ss with
  | nil => exact absurd rfl hne
  | cons s ss2 =>
    cases os with
    | nil => exact absurd hlen (by simp)
    | cons o os2 =>
      rw [List.zip_cons_cons, List.reverse_cons, rpathVal_snoc,
        chainVal_fvalRest m ss2 os2 s (by simpa using hlen)]
      rfl

/-! ### `stepVal` elimination and introduction -/

theorem stepVal_elim (m : hmm) (prev s o : String) (u : ℚ)
    (h : stepVal m prev s o = some u) :
    ∃ pst t st, alookup m.states prev = some pst ∧
      alookup pst.p_transition s = some t ∧
      alookup m.states s = some st ∧
      0 < t ∧ 0 < (alookup st.p_emission o).getD 0 ∧
      u = t * (alookup st.p_emission o).getD 0 := by
  rw [stepVal] at h
  cases h1 : alookup m.states prev with
  | none => rw [h1] at h; exact absurd h (by simp)
  | some pst =>
    rw [h1] at h
    dsimp only [] at h
    cases h2 : alookup pst.p_transition s with
    | none => rw [h2] at h; exact absurd h (by simp)
    | some t =>
      rw [h2] at h
      dsimp only [] at h
      cases h3 : alookup m.states s with
      | none => rw [h3] at h; exact absurd h (by simp)
      | some st =>
        rw [h3] at h
        dsimp only [] at h
        by_cases h4 : 0 < t ∧ 0 < (alookup st.p_emission o).getD 0
        · rw [if_pos h4] at h
          injection h with h5
          refine ⟨pst, t, st, ?_, ?_, ?_, h4.1, h4.2, h5.symm⟩ <;> first | rfl | assumption
        · rw [if_neg h4] at h
          exact absurd h (by simp)

theorem stepVal_intro (m : hmm) (prev s o : String) (pst st : state) (t : ℚ)
    (h1 : alookup m.states prev = some pst)
    (h2 : alookup pst.p_transition s = some t)
    (h3 : alookup m.states s = some st)
    (h4 : 0 < t) (h5 : 0 < (alookup st.p_emission o).getD 0) :
    stepVal m prev s o = some (t * (alookup st.p_emission o).getD 0) := by
  rw [stepVal, h1]
  dsimp only []
  rw [h2]
  dsimp only []
  rw [h3]
  dsimp only []
  rw [if_pos ⟨h4, h5⟩]

theorem stepVal_pos (m : hmm) (prev s o : String) (u : ℚ)
    (h : stepVal m prev s o = some u) : 0 < u := by
  obtain ⟨pst, t, st, _, _, _, h4, h5, h6⟩ := stepVal_elim m prev s o u h
  rw [h6]
  exact mul_pos h4 h5

/-! ### `cellSpec` recurrences -/

theorem cellSpec_single (m : hmm) (s o : String) :
    cellSpec m s [o] = headVal m s o := by
  rw [cellSpec, rpaths]
  simp [bestOver, optMax_none_right, rpathVal_one]

theorem cellSpec_step (m : hmm) (s o o2 : String) (rl : List String) :
    cellSpec m s (o :: o2 :: rl) =
      bestOver ((stateNames m).map
        (fun n => omul (cellSpec m n (o2 :: rl)) (stepVal m n s o))) := by
  rw [cellSpec, rpaths, bestOver_flatMap]
  congr 1
  apply List.map_congr_left
  intro n _
  rw [List.map_map]
  have hcomp : ((fun p => rpathVal m ((s, o) :: p)) ∘ fun p => (n, o2) :: p) =
      (fun p => omul (rpathVal m ((n, o2) :: p)) (stepVal m n s o)) := by
    funext p
    exact rpathVal_cons₂ m s o n o2 p
  rw [hcomp]
  cases hsv : stepVal m n s o with
  | none =>
    rw [show omul (cellSpec m n (o2 :: rl)) none = none from omul_none_right _]
    apply bestOver_none_of_all
    intro a ha
    obtain ⟨p, _, hp⟩ := List.mem_map.mp ha
    rw [← hp, omul_none_right]
  | some c =>
    have hc : 0 < c := stepVal_pos m n s o c hsv
    rw [show (fun p => omul (rpathVal m ((n, o2) :: p)) (some c)) =
      (fun p => omul ((fun q => rpathVal m ((n, o2) :: q)) p) (some c)) from rfl]
    rw [bestOver_omul_const _ _ c hc, cellSpec]

/-! ### `scoreOf` agrees with `fval` on non-terminal models -/

theorem scoreOf_eq_fval (m : hmm) (Hterm : m.terminal_state = false)
    (obs ss : List String) : scoreOf m obs ss = fval m ss obs := by
  rw [scoreOf]
  cases hs : score m ss obs with
  | val v =>
    dsimp only []
    exact ((score_val_iff m Hterm ss obs v).mp hs).symm
  | invalid =>
    dsimp only []
    cases hf : fval m ss obs with
    | none => rfl
    | some w =>
      have h2 := (score_val_iff m Hterm ss obs w).mpr hf
      rw [hs] at h2
      exact absurd h2 (by simp)
  | error =>
    dsimp only []
    cases hf : fval m ss obs with
    | none => rfl
    | some w =>
      have h2 := (score_val_iff m Hterm ss obs w).mpr hf
      rw [hs] at h2
      exact absurd h2 (by simp)


/-! ### Cell/column correspondence between the code and `cellSpec` -/

theorem optMax_none_left (b : Option ℚ) : optMax none b = b := rfl

theorem firstCell_ok (m : hmm) (s o : String) (st : state)
    (hs : alookup m.states s = some st) (c : Option ℚ)
    (h : firstCell st o = .ok c) : c = headVal m s o := by
  rw [firstCell] at h
  rw [headVal, hs]
  dsimp only []
  by_cases h1 : st.p_initial = 0 ∨ (alookup st.p_emission o).getD 0 = 0
  · rw [if_pos h1] at h
    injection h with h2
    rw [← h2]
    rw [if_neg ?hc]
    case hc =>
      rintro ⟨hp1, hp2⟩
      rcases h1 with h1 | h1
      · rw [h1] at hp1; exact absurd hp1 (by simp)
      · rw [h1] at hp2; exact absurd hp2 (by simp)
  · rw [if_neg h1] at h
    by_cases h2 : st.p_initial < 0 ∨ (alookup st.p_emission o).getD 0 < 0
    · rw [if_pos h2] at h
      exact absurd h (by simp)
    · rw [if_neg h2] at h
      injection h with h3
      rw [← h3]
      push_neg at h1 h2
      rw [if_pos ⟨lt_of_le_of_ne h2.1 (Ne.symm h1.1), lt_of_le_of_ne h2.2 (Ne.symm h1.2)⟩]

theorem transCand_eq (m : hmm) (s o : String) (st : state)
    (hs : alookup m.states s = some st)
    (hpe : 0 < (alookup st.p_emission o).getD 0) (e : String × Option ℚ) :
    transCand m s ((alookup st.p_emission o).getD 0) e =
      omul e.2 (stepVal m e.1 s o) := by
  obtain ⟨n, cv⟩ := e
  rw [transCand]
  dsimp only []
  cases cv with
  | none => exact (omul_none_left _).symm
  | some v =>
    cases h1 : alookup m.states n with
    | none =>
      rw [stepVal, h1]
      rfl
    | some pst =>
      dsimp only []
      cases h2 : alookup pst.p_transition s with
      | none =>
        rw [stepVal, h1]
        dsimp only []
        rw [h2]
        rfl
      | some t =>
        dsimp only []
        rw [stepVal, h1]
        dsimp only []
        rw [h2]
        dsimp only []
        rw [hs]
        dsimp only []
        by_cases ht : 0 < t
        · rw [if_pos ht, if_pos ⟨ht, hpe⟩]
          rw [show omul (some v) (some (t * (alookup st.p_emission o).getD 0)) =
            some (v * (t * (alookup st.p_emission o).getD 0)) from rfl]
          congr 1
          ring
        · rw [if_neg ht, if_neg (by rintro ⟨h3, _⟩; exact ht h3)]
          rfl

theorem transCand_none_omul (m : hmm) (s o : String) (st : state) (pe : ℚ)
    (hs : alookup m.states s = some st) (n : String) (cv : Option ℚ)
    (h : transCand m s pe (n, cv) = none) :
    omul cv (stepVal m n s o) = none := by
  rw [transCand] at h
  dsimp only [] at h
  cases cv with
  | none => exact omul_none_left _
  | some v =>
    cases h1 : alookup m.states n with
    | none =>
      rw [stepVal, h1]
      rfl
    | some pst =>
      rw [h1] at h
      dsimp only [] at h
      cases h2 : alookup pst.p_transition s with
      | none =>
        rw [stepVal, h1]
        dsimp only []
        rw [h2]
        rfl
      | some t =>
        rw [h2] at h
        dsimp only [] at h
        by_cases ht : 0 < t
        · rw [if_pos ht] at h
          exact absurd h (by simp)
        · rw [stepVal, h1]
          dsimp only []
          rw [h2]
          dsimp only []
          rw [hs]
          dsimp only []
          rw [if_neg (by rintro ⟨h3, _⟩; exact ht h3)]
          rfl

theorem candList_all_none (m : hmm) (s : String) (pe : ℚ) :
    ∀ (col : Column), candList m s pe col = [] →
      ∀ e ∈ col, transCand m s pe e = none := by
  intro col
  induction col with
  | nil => intro _ e he; exact absurd he (List.not_mem_nil _)
  | cons e0 rest ih =>
    intro h e he
    rw [candList] at h
    cases htc : transCand m s pe e0 with
    | none =>
      rw [htc] at h
      rcases List.mem_cons.mp he with rfl | h2
      · exact htc
      · exact ih h e h2
    | some v =>
      rw [htc] at h
      exact absurd h (by simp)

theorem bestOver_transCand_candList (m : hmm) (s : String) (pe : ℚ) :
    ∀ (col : Column),
      bestOver (col.map (fun e => transCand m s pe e)) =
        bestOver ((candList m s pe col).map some) := by
  intro col
  induction col with
  | nil => rfl
  | cons e rest ih =>
    rw [List.map_cons, bestOver_cons, candList]
    cases htc : transCand m s pe e with
    | none => rw [optMax_none_left, ih]
    | some v => rw [List.map_cons, bestOver_cons, ih]

theorem foldBest_eq_foldl : ∀ (l : List ℚ) (c : ℚ), foldBest c l = l.foldl max c := by
  intro l
  induction l with
  | nil => intro c; rfl
  | cons x rest ih =>
    intro c
    rw [foldBest, List.foldl_cons, ih]
    congr 1
    by_cases hcx : c < x
    · rw [if_pos hcx, max_eq_right (le_of_lt hcx)]
    · rw [if_neg hcx, max_eq_left (not_lt.mp hcx)]

theorem foldl_max_comm : ∀ (l : List ℚ) (a b : ℚ),
    max a (l.foldl max b) = l.foldl max (max a b) := by
  intro l
  induction l with
  | nil => intro a b; rfl
  | cons y t ih =>
    intro a b
    rw [List.foldl_cons, List.foldl_cons, ih, max_assoc]

theorem bestOver_map_some : ∀ (cs : List ℚ) (c : ℚ),
    bestOver ((c :: cs).map some) = some (cs.foldl max c) := by
  intro cs
  induction cs with
  | nil => intro c; rfl
  | cons x rest ih =>
    intro c
    rw [List.map_cons, bestOver_cons, ih x,
      show optMax (some c) (some (rest.foldl max x)) =
        some (max c (rest.foldl max x)) from rfl,
      foldl_max_comm, List.foldl_cons]

theorem nextCell_ok (m : hmm) (s o o2 : String) (rl : List String) (st : state)
    (hs : alookup m.states s = some st) (c : Option ℚ)
    (h : nextCell m (colFor m (o2 :: rl)) s st o = .ok c) :
    c = cellSpec m s (o :: o2 :: rl) := by
  rw [nextCell] at h
  by_cases h0 : (alookup st.p_emission o).getD 0 = 0
  · rw [if_pos h0] at h
    injection h with h1
    rw [← h1, cellSpec_step]
    symm
    apply bestOver_none_of_all
    intro a ha
    obtain ⟨n, _, hn⟩ := List.mem_map.mp ha
    rw [← hn]
    cases hsv : stepVal m n s o with
    | none => exact omul_none_right _
    | some u =>
      obtain ⟨pst, t, st2, _, _, h3, _, h5, _⟩ := stepVal_elim m n s o u hsv
      rw [hs] at h3
      injection h3 with h6
      rw [← h6] at h5
      exact absurd h0 (ne_of_gt h5)
  · rw [if_neg h0] at h
    cases hcl : candList m s ((alookup st.p_emission o).getD 0) (colFor m (o2 :: rl)) with
    | nil =>
      rw [hcl] at h
      dsimp only [] at h
      injection h with h1
      rw [← h1, cellSpec_step]
      symm
      apply bestOver_none_of_all
      intro a ha
      obtain ⟨n, hn2, hn⟩ := List.mem_map.mp ha
      rw [← hn]
      obtain ⟨p, hp, hp2⟩ := List.mem_map.mp (by rw [stateNames] at hn2; exact hn2)
      have hent : (n, cellSpec m n (o2 :: rl)) ∈ colFor m (o2 :: rl) := by
        rw [colFor]
        exact List.mem_map.mpr ⟨p, hp, by rw [hp2]⟩
      have htc := candList_all_none m s _ _ hcl _ hent
      exact transCand_none_omul m s o st _ hs n _ htc
    | cons c0 cs0 =>
      rw [hcl] at h
      dsimp only [] at h
      by_cases hneg : (alookup st.p_emission o).getD 0 < 0
      · rw [if_pos hneg] at h
        exact absurd h (by simp)
      · rw [if_neg hneg] at h
        injection h with h1
        rw [← h1, cellSpec_step]
        have hpos : 0 < (alookup st.p_emission o).getD 0 :=
          lt_of_le_of_ne (not_lt.mp hneg) (Ne.symm h0)
        have hptw : (stateNames m).map
            (fun n => omul (cellSpec m n (o2 :: rl)) (stepVal m n s o)) =
            (colFor m (o2 :: rl)).map
              (fun e => transCand m s ((alookup st.p_emission o).getD 0) e) := by
          rw [stateNames, colFor, List.map_map, List.map_map]
          apply List.map_congr_left
          intro p _
          exact (transCand_eq m s o st hs hpos (p.1, cellSpec m p.1 (o2 :: rl))).symm
        rw [hptw, bestOver_transCand_candList, hcl, bestOver_map_some,
          foldBest_eq_foldl]

/-! ### Column and trellis correspondence -/

theorem buildCol_ok (f : String → state → Except Unit (Option ℚ))
    (g : String → Option ℚ) :
    ∀ (l : List (String × state)) (col : Column),
      (∀ n st, (n, st) ∈ l → ∀ c, f n st = .ok c → c = g n) →
      buildCol f l = .ok col → col = l.map (fun p => (p.1, g p.1)) := by
  intro l
  induction l with
  | nil =>
    intro col _ h
    injection h with h2
    rw [← h2]
    rfl
  | cons e rest ih =>
    intro col hf h
    obtain ⟨n, st⟩ := e
    simp only [buildCol] at h
    cases hc : f n st with
    | error e2 => rw [hc] at h; exact absurd h (by simp)
    | ok c =>
      rw [hc] at h
      dsimp only [] at h
      cases hrest : buildCol f rest with
      | error e2 => rw [hrest] at h; exact absurd h (by simp)
      | ok cs =>
        rw [hrest] at h
        dsimp only [] at h
        injection h with h2
        rw [← h2, List.map_cons]
        rw [hf n st (by simp) c hc,
          ih cs (fun n2 st2 hm => hf n2 st2 (List.mem_cons_of_mem _ hm)) hrest]

theorem firstColumn_ok (m : hmm) (Hnodup : (stateNames m).Nodup) (o : String)
    (col : Column) (h : firstColumn m o = .ok col) : col = colFor m [o] := by
  rw [firstColumn] at h
  rw [colFor]
  refine buildCol_ok _ (fun n => cellSpec m n [o]) m.states col ?_ h
  intro n st hm c hc
  have hlk : alookup m.states n = some st :=
    alookup_nodup_mem m.states (by rw [stateNames] at Hnodup; exact Hnodup) n st hm
  rw [firstCell_ok m n o st hlk c hc]
  show headVal m n o = cellSpec m n [o]
  rw [cellSpec_single]

theorem nextColumn_ok (m : hmm) (Hnodup : (stateNames m).Nodup) (o o2 : String)
    (rl : List String) (col : Column)
    (h : nextColumn m (colFor m (o2 :: rl)) o = .ok col) :
    col = colFor m (o :: o2 :: rl) := by
  rw [nextColumn] at h
  rw [colFor]
  refine buildCol_ok _ (fun n => cellSpec m n (o :: o2 :: rl)) m.states col ?_ h
  intro n st hm c hc
  have hlk : alookup m.states n = some st :=
    alookup_nodup_mem m.states (by rw [stateNames] at Hnodup; exact Hnodup) n st hm
  exact nextCell_ok m n o o2 rl st hlk c hc

/-- The intended column list of the trellis below a processed reversed
prefix. -/
def specColsFrom (m : hmm) (rpre : List String) : List String → List Column
  | [] => []
  | o :: rest => colFor m (o :: rpre) :: specColsFrom m (o :: rpre) rest

theorem trellisFrom_cols (m : hmm) (Hterm : m.terminal_state = false)
    (Hnodup : (stateNames m).Nodup) :
    ∀ (rest : List String) (rpre : List String) (cols : List Column), rpre ≠ [] →
      trellisFrom m (colFor m rpre) rest = .ok cols →
      cols = specColsFrom m rpre rest := by
  intro rest
  induction rest with
  | nil =>
    intro rpre cols _ h
    injection h with h2
    rw [← h2]
    rfl
  | cons o rest2 ih =>
    intro rpre cols hne h
    obtain ⟨o2, rl⟩ : ∃ o2 rl, rpre = o2 :: rl := by
      cases rpre with
      | nil => exact absurd rfl hne
      | cons a b => exact ⟨a, b, rfl⟩
    obtain ⟨rl, rfl⟩ := rl
    simp only [trellisFrom] at h
    cases hnc : nextColumn m (colFor m (o2 :: rl)) o with
    | error e => rw [hnc] at h; exact absurd h (by simp)
    | ok raw =>
      rw [hnc] at h
      have hraw : raw = colFor m (o :: o2 :: rl) :=
        nextColumn_ok m Hnodup o o2 rl raw hnc
      simp only [Hterm, Bool.and_false, Bool.false_eq_true, reduceIte] at h
      try dsimp only [] at h
      cases htf : trellisFrom m raw rest2 with
      | error e => rw [htf] at h; exact absurd h (by simp)
      | ok more =>
        rw [htf] at h
        dsimp only [] at h
        injection h with h2
        rw [hraw] at htf
        rw [← h2, hraw, ih (o :: o2 :: rl) more (by simp) htf]
        rfl

theorem trellis_cols (m : hmm) (Hterm : m.terminal_state = false)
    (Hnodup : (stateNames m).Nodup) (o1 : String) (rest : List String)
    (cols : List Column) (h : trellis m (o1 :: rest) = .ok cols) :
    cols = colFor m [o1] :: specColsFrom m [o1] rest := by
  simp only [trellis] at h
  cases hfc : firstColumn m o1 with
  | error e => rw [hfc] at h; exact absurd h (by simp)
  | ok raw =>
    rw [hfc] at h
    have hraw : raw = colFor m [o1] := firstColumn_ok m Hnodup o1 raw hfc
    simp only [Hterm, Bool.and_false, Bool.false_eq_true, reduceIte] at h
    try dsimp only [] at h
    cases htf : trellisFrom m raw rest with
    | error e => rw [htf] at h; exact absurd h (by simp)
    | ok more =>
      rw [htf] at h
      dsimp only [] at h
      injection h with h2
      rw [hraw] at htf
      rw [← h2, hraw, trellisFrom_cols m Hterm Hnodup rest [o1] more (by simp) htf]

theorem specColsFrom_lastCol (m : hmm) :
    ∀ (rest rpre : List String),
      lastCol (colFor m rpre :: specColsFrom m rpre rest) =
        some (colFor m (rest.reverse ++ rpre)) := by
  intro rest
  induction rest with
  | nil => intro rpre; rfl
  | cons o rest2 ih =>
    intro rpre
    rw [show specColsFrom m rpre (o :: rest2) =
      colFor m (o :: rpre) :: specColsFrom m (o :: rpre) rest2 from rfl]
    rw [show lastCol (colFor m rpre :: colFor m (o :: rpre) ::
        specColsFrom m (o :: rpre) rest2) =
      lastCol (colFor m (o :: rpre) :: specColsFrom m (o :: rpre) rest2) from rfl]
    rw [ih (o :: rpre)]
    congr 1
    rw [List.reverse_cons, List.append_assoc]
    rfl

theorem specColsFrom_butLastRev (m : hmm) :
    ∀ (rest rpre : List String), rpre ≠ [] →
      butLastRev (colFor m rpre :: specColsFrom m rpre rest) ++
          colsBelow m rpre.tail =
        colsBelow m ((rest.reverse ++ rpre).tail) := by
  intro rest
  induction rest with
  | nil =>
    intro rpre _
    rw [show specColsFrom m rpre [] = ([] : List Column) from rfl,
      show butLastRev [colFor m rpre] = ([] : List Column) from rfl,
      List.nil_append]
    rfl
  | cons o rest2 ih =>
    intro rpre hne
    obtain ⟨x, t, rfl⟩ : ∃ x t, rpre = x :: t := by
      cases rpre with
      | nil => exact absurd rfl hne
      | cons a b => exact ⟨a, b, rfl⟩
    rw [show specColsFrom m (x :: t) (o :: rest2) =
      colFor m (o :: x :: t) :: specColsFrom m (o :: x :: t) rest2 from rfl]
    rw [show butLastRev (colFor m (x :: t) :: colFor m (o :: x :: t) ::
        specColsFrom m (o :: x :: t) rest2) =
      butLastRev (colFor m (o :: x :: t) :: specColsFrom m (o :: x :: t) rest2) ++
        [colFor m (x :: t)] from rfl]
    rw [List.append_assoc]
    rw [show [colFor m (x :: t)] ++ colsBelow m (x :: t).tail =
      colsBelow m (x :: t) from rfl]
    rw [show colsBelow m (x :: t) = colsBelow m ((o :: x :: t).tail) from rfl]
    rw [ih (o :: x :: t) (by simp)]
    congr 1
    rw [List.reverse_cons, List.append_assoc]
    rfl


/-! ### `max`-scan, filter and connectivity toolkit -/

theorem pick_if_val (cn : String) (cv : Option ℚ) (bn : String) (bv : Option ℚ) :
    (if gtOpt cv bv then (cn, cv) else (bn, bv)).2 = optMax bv cv := by
  cases cv with
  | none =>
    rw [show gtOpt none bv = false from by cases bv <;> rfl]
    simp only [Bool.false_eq_true, reduceIte]
    exact (optMax_none_right bv).symm
  | some c =>
    cases bv with
    | none =>
      rw [show gtOpt (some c) none = true from rfl]
      simp only [reduceIte]
      rfl
    | some b =>
      rw [show gtOpt (some c) (some b) = (if b < c then true else false) from rfl]
      by_cases hlt : b < c
      · rw [if_pos hlt]
        simp only [reduceIte]
        rw [show optMax (some b) (some c) = some (max b c) from rfl,
          max_eq_right (le_of_lt hlt)]
      · rw [if_neg hlt]
        simp only [Bool.false_eq_true, reduceIte]
        rw [show optMax (some b) (some c) = some (max b c) from rfl,
          max_eq_left (not_lt.mp hlt)]

theorem pickBest_val : ∀ (l : Column) (best : String × Option ℚ),
    (pickBest best l).2 = optMax best.2 (bestOver (l.map Prod.snd)) := by
  intro l
  induction l with
  | nil =>
    intro best
    rw [show pickBest best [] = best from rfl, List.map_nil, bestOver_nil,
      optMax_none_right]
  | cons cur rest ih =>
    intro best
    rw [show pickBest best (cur :: rest) =
      pickBest (if gtOpt cur.2 best.2 then cur else best) rest from rfl]
    rw [ih]
    obtain ⟨cn, cv⟩ := cur
    obtain ⟨bn, bv⟩ := best
    rw [pick_if_val, List.map_cons, bestOver_cons, ← optMax_assoc]

theorem pickBest_mem : ∀ (l : Column) (best : String × Option ℚ),
    pickBest best l ∈ best :: l := by
  intro l
  induction l with
  | nil =>
    intro best
    exact List.mem_cons_self _ _
  | cons cur rest ih =>
    intro best
    rw [show pickBest best (cur :: rest) =
      pickBest (if gtOpt cur.2 best.2 then cur else best) rest from rfl]
    have h := ih (if gtOpt cur.2 best.2 then cur else best)
    rcases List.mem_cons.mp h with h2 | h2
    · rw [h2]
      cases hgt : gtOpt cur.2 best.2
      · simp only [Bool.false_eq_true, reduceIte]
        exact List.mem_cons_self _ _
      · simp only [reduceIte]
        exact List.mem_cons_of_mem _ (List.mem_cons_self _ _)
    · exact List.mem_cons_of_mem _ (List.mem_cons_of_mem _ h2)

theorem pickMax_ok (l : Column) (e : String × Option ℚ) (h : pickMax l = .ok e) :
    e ∈ l ∧ e.2 = bestOver (l.map Prod.snd) := by
  cases l with
  | nil => exact absurd h (by rw [pickMax]; simp)
  | cons e0 rest =>
    rw [pickMax] at h
    injection h with h2
    rw [← h2]
    exact ⟨pickBest_mem rest e0, by rw [pickBest_val, List.map_cons, bestOver_cons]⟩

theorem filterCol_sub (m : hmm) (next : String) :
    ∀ (l : Column) (e : String × Option ℚ), e ∈ filterCol m next l →
      e ∈ l ∧ keepEntry m next e = true := by
  intro l
  induction l with
  | nil => intro e he; exact absurd he (List.not_mem_nil _)
  | cons e0 rest ih =>
    intro e he
    rw [filterCol] at he
    by_cases hk : keepEntry m next e0 = true
    · rw [if_pos hk] at he
      rcases List.mem_cons.mp he with rfl | h2
      · exact ⟨List.mem_cons_self _ _, hk⟩
      · obtain ⟨h1, h3⟩ := ih e h2
        exact ⟨List.mem_cons_of_mem _ h1, h3⟩
    · rw [if_neg hk] at he
      obtain ⟨h1, h2⟩ := ih e he
      exact ⟨List.mem_cons_of_mem _ h1, h2⟩

theorem mem_filterCol (m : hmm) (next : String) :
    ∀ (l : Column) (e : String × Option ℚ), e ∈ l → keepEntry m next e = true →
      e ∈ filterCol m next l := by
  intro l
  induction l with
  | nil => intro e he _; exact absurd he (List.not_mem_nil _)
  | cons e0 rest ih =>
    intro e he hk
    rw [filterCol]
    rcases List.mem_cons.mp he with rfl | h2
    · rw [hk]
      simp only [reduceIte]
      exact List.mem_cons_self _ _
    · cases hk0 : keepEntry m next e0
      · simp only [Bool.false_eq_true, reduceIte]
        exact ih e h2 hk
      · simp only [reduceIte]
        exact List.mem_cons_of_mem _ (ih e h2 hk)

theorem _connected_elim (m : hmm) (a b : String) (h : _connected m a b = true) :
    ∃ pst t, alookup m.states a = some pst ∧
      alookup pst.p_transition b = some t ∧ 0 < t := by
  rw [_connected] at h
  cases h1 : alookup m.states a with
  | none => rw [h1] at h; exact absurd h (by simp)
  | some pst =>
    rw [h1] at h
    dsimp only [] at h
    cases h2 : alookup pst.p_transition b with
    | none => rw [h2] at h; exact absurd h (by simp)
    | some t =>
      rw [h2] at h
      dsimp only [] at h
      by_cases ht : 0 < t
      · exact ⟨pst, t, rfl, h2, ht⟩
      · rw [if_neg ht] at h
        exact absurd h (by simp)

theorem _connected_intro (m : hmm) (a b : String) (pst : state) (t : ℚ)
    (h1 : alookup m.states a = some pst) (h2 : alookup pst.p_transition b = some t)
    (ht : 0 < t) : _connected m a b = true := by
  rw [_connected, h1]
  dsimp only []
  rw [h2]
  dsimp only []
  rw [if_pos ht]

theorem keepEntry_elim (m : hmm) (next : String) (e : String × Option ℚ)
    (h : keepEntry m next e = true) :
    ∃ v, e.2 = some v ∧ _connected m e.1 next = true := by
  rw [keepEntry] at h
  cases hv : e.2 with
  | none => rw [hv] at h; exact absurd h (by simp)
  | some v =>
    rw [hv] at h
    exact ⟨v, rfl, h⟩

theorem keepEntry_intro (m : hmm) (next : String) (e : String × Option ℚ) (v : ℚ)
    (hv : e.2 = some v) (hc : _connected m e.1 next = true) :
    keepEntry m next e = true := by
  rw [keepEntry, hv]
  exact hc


/-! ### Backtracking correctness -/

theorem backLoop_spec (m : hmm) :
    ∀ (rl : List String) (o cur : String) (acc : List String) (v : ℚ),
      cur ∈ stateNames m →
      cellSpec m cur (o :: rl) = some v →
      ∃ res w, backLoop m (colsBelow m rl) cur acc = .ok (acc ++ res) ∧
        res.length = rl.length ∧
        rpathVal m ((cur :: res).zip (o :: rl)) = some w ∧
        ((cur :: res).zip (o :: rl)) ∈ rpaths m (o :: rl) := by
  intro rl
  induction rl with
  | nil =>
    intro o cur acc v hcur hcell
    rw [cellSpec_single] at hcell
    refine ⟨[], v, ?_, rfl, ?_, ?_⟩
    · rw [show colsBelow m [] = [] from rfl,
        show backLoop m [] cur acc = .ok acc from rfl, List.append_nil]
    · rw [List.zip_cons_cons, List.zip_nil_right, rpathVal_one]
      exact hcell
    · refine (rpaths_mem m [o] _).mpr ⟨?_, ?_⟩
      · rw [List.zip_cons_cons, List.zip_nil_right]
        rfl
      · intro s hsm
        rw [List.zip_cons_cons, List.zip_nil_right] at hsm
        simp only [List.map_cons, List.map_nil, List.mem_singleton] at hsm
        rw [hsm]
        exact hcur
  | cons o2 rl2 ih =>
    intro o cur acc v hcur hcell
    rw [cellSpec_step] at hcell
    obtain ⟨s0, hs0, heq⟩ := List.mem_map.mp (bestOver_some_mem _ v hcell)
    obtain ⟨w0, u0, hw0, hu0, hv⟩ := omul_some_iff _ _ v heq
    obtain ⟨pst0, t0, stc, hpst0, ht0, hstc, ht0pos, hpepos, hueq⟩ :=
      stepVal_elim m s0 cur o u0 hu0
    have he0col : (s0, cellSpec m s0 (o2 :: rl2)) ∈ colFor m (o2 :: rl2) := by
      rw [stateNames] at hs0
      obtain ⟨p, hp, hps⟩ := List.mem_map.mp hs0
      rw [colFor]
      exact List.mem_map.mpr ⟨p, hp, by rw [hps]⟩
    have he0keep : keepEntry m cur (s0, cellSpec m s0 (o2 :: rl2)) = true := by
      refine keepEntry_intro m cur _ w0 hw0 ?_
      exact _connected_intro m s0 cur pst0 t0 hpst0 ht0 ht0pos
    have he0f := mem_filterCol m cur _ _ he0col he0keep
    cases hfc : filterCol m cur (colFor m (o2 :: rl2)) with
    | nil => rw [hfc] at he0f; exact absurd he0f (List.not_mem_nil _)
    | cons f0 fr =>
      rcases hpbe : pickBest f0 fr with ⟨n, cv⟩
      have hpmem : (n, cv) ∈ filterCol m cur (colFor m (o2 :: rl2)) := by
        rw [hfc, ← hpbe]
        exact pickBest_mem fr f0
      obtain ⟨hpcol, hpkeep⟩ := filterCol_sub m cur _ _ hpmem
      obtain ⟨p, hp, hpe⟩ := List.mem_map.mp (by rw [colFor] at hpcol; exact hpcol)
      have hpn : p.1 = n := congrArg Prod.fst hpe
      have hpcv : cellSpec m p.1 (o2 :: rl2) = cv := congrArg Prod.snd hpe
      have hnmem : n ∈ stateNames m := by
        rw [stateNames]
        exact List.mem_map.mpr ⟨p, hp, hpn⟩
      obtain ⟨w1, hcv1, hconn⟩ := keepEntry_elim m cur (n, cv) hpkeep
      have hcell1 : cellSpec m n (o2 :: rl2) = some w1 := by
        rw [← hpn, hpcv]
        exact hcv1
      obtain ⟨pst1, t1, hpst1, ht1, ht1pos⟩ := _connected_elim m n cur hconn
      have hsv1 : stepVal m n cur o =
          some (t1 * (alookup stc.p_emission o).getD 0) :=
        stepVal_intro m n cur o pst1 stc t1 hpst1 ht1 hstc ht1pos hpepos
      obtain ⟨res2, w2, hbl2, hlen2, hrv2, hrp2⟩ :=
        ih o2 n (acc ++ [n]) w1 hnmem hcell1
      have hstep : backLoop m (colsBelow m (o2 :: rl2)) cur acc =
          backLoop m (colsBelow m rl2) n (acc ++ [n]) := by
        rw [show colsBelow m (o2 :: rl2) =
          colFor m (o2 :: rl2) :: colsBelow m rl2 from rfl]
        rw [show backLoop m (colFor m (o2 :: rl2) :: colsBelow m rl2) cur acc =
          (match pickMax (filterCol m cur (colFor m (o2 :: rl2))) with
           | .error e => .error e
           | .ok (n2, _) => backLoop m (colsBelow m rl2) n2 (acc ++ [n2]))
          from rfl]
        rw [hfc, show pickMax (f0 :: fr) = .ok (pickBest f0 fr) from rfl, hpbe]
      refine ⟨n :: res2, w2 * (t1 * (alookup stc.p_emission o).getD 0),
        ?_, ?_, ?_, ?_⟩
      · rw [hstep, hbl2, List.append_assoc]
        rfl
      · rw [List.length_cons, hlen2, List.length_cons]
      · rw [List.zip_cons_cons, List.zip_cons_cons, rpathVal_cons₂]
        rw [List.zip_cons_cons] at hrv2
        rw [hrv2, hsv1]
        rfl
      · obtain ⟨hm1, hm2⟩ := (rpaths_mem m (o2 :: rl2) _).mp hrp2
        refine (rpaths_mem m (o :: o2 :: rl2) _).mpr ⟨?_, ?_⟩
        · rw [List.zip_cons_cons, List.map_cons, hm1]
        · intro s hsm
          rw [List.zip_cons_cons, List.map_cons] at hsm
          rcases List.mem_cons.mp hsm with rfl | hsm2
          · exact hcur
          · exact hm2 s hsm2
  

theorem zip_map_fst {α β : Type} :
    ∀ (l1 : List α) (l2 : List β), l1.length = l2.length →
      (l1.zip l2).map Prod.fst = l1 := by
  intro l1
  induction l1 with
  | nil => intro l2 _; rfl
  | cons a t ih =>
    intro l2 h
    cases l2 with
    | nil => exact absurd h (by simp)
    | cons b u =>
      rw [List.zip_cons_cons, List.map_cons, ih u (by simpa using h)]

theorem zip_map_snd {α β : Type} :
    ∀ (l1 : List α) (l2 : List β), l1.length = l2.length →
      (l1.zip l2).map Prod.snd = l2 := by
  intro l1
  induction l1 with
  | nil =>
    intro l2 h
    rw [List.zip_nil_left]
    exact (List.length_eq_zero.mp h.symm).symm ▸ rfl
  | cons a t ih =>
    intro l2 h
    cases l2 with
    | nil => exact absurd h (by simp)
    | cons b u =>
      rw [List.zip_cons_cons, List.map_cons, ih u (by simpa using h)]

theorem colFor_bestOver (m : hmm) (o : String) (ros : List String) :
    bestOver ((colFor m (o :: ros)).map Prod.snd) =
      bestOver ((rpaths m (o :: ros)).map (rpathVal m)) := by
  rw [show rpaths m (o :: ros) = (stateNames m).flatMap
    (fun s => (rpaths m ros).map (fun p => (s, o) :: p)) from rfl]
  rw [bestOver_flatMap]
  rw [colFor, stateNames, List.map_map, List.map_map]
  congr 1
  apply List.map_congr_left
  intro p _
  show cellSpec m p.1 (o :: ros) =
    bestOver (List.map (rpathVal m)
      (List.map (fun q => (p.1, o) :: q) (rpaths m ros)))
  rw [cellSpec, List.map_map]
  rfl

theorem rpaths_bestOver_eq_bestScore (m : hmm) (Hterm : m.terminal_state = false)
    (obs : List String) (hobs : obs ≠ []) :
    bestOver ((rpaths m obs.reverse).map (rpathVal m)) = bestScore m obs := by
  rw [bestScore]
  apply bestOver_eq_of_mem_iff
  · intro a ha
    obtain ⟨q, hq, hqa⟩ := List.mem_map.mp ha
    obtain ⟨h1, h2⟩ := (rpaths_mem m obs.reverse q).mp hq
    have hlenq : (q.map Prod.fst).length = obs.length := by
      have h3 := congrArg List.length h1
      rw [List.length_map] at h3
      rw [List.length_map, h3, List.length_reverse]
    have hzip : q = (q.map Prod.fst).zip obs.reverse := by
      rw [← h1]
      exact (zip_fst_snd q).symm
    have hssrev : ((q.map Prod.fst).reverse).reverse = q.map Prod.fst :=
      List.reverse_reverse _
    have hlen : ((q.map Prod.fst).reverse).length = obs.length := by
      rw [List.length_reverse]
      exact hlenq
    have hne : (q.map Prod.fst).reverse ≠ [] := by
      intro hz
      have h4 := congrArg List.length hz
      rw [hlen] at h4
      exact hobs (List.length_eq_zero.mp (by simpa using h4))
    have hzipr : (((q.map Prod.fst).reverse).zip obs).reverse = q := by
      rw [← zip_reverse _ obs hlen, hssrev, ← hzip]
    refine List.mem_map.mpr ⟨(q.map Prod.fst).reverse, ?_, ?_⟩
    · refine (allStateSeqs_mem m obs.length _).mpr ⟨hlen, ?_⟩
      intro s hs
      exact h2 s (by rw [← hssrev]; exact List.mem_reverse.mpr hs)
    · rw [scoreOf_eq_fval m Hterm,
        ← fval_rpathVal m _ obs hne hlen, hzipr, hqa]
  · intro a ha
    obtain ⟨ss, hss, hpa⟩ := List.mem_map.mp ha
    obtain ⟨hlen, hmem⟩ := (allStateSeqs_mem m obs.length ss).mp hss
    have hne : ss ≠ [] := by
      intro hz
      rw [hz] at hlen
      exact hobs (List.length_eq_zero.mp hlen.symm)
    refine List.mem_map.mpr ⟨(ss.zip obs).reverse, ?_, ?_⟩
    · refine (rpaths_mem m obs.reverse _).mpr ⟨?_, ?_⟩
      · rw [← zip_reverse ss obs hlen,
          zip_map_snd ss.reverse obs.reverse (by simp [hlen])]
      · intro s hs
        rw [← zip_reverse ss obs hlen,
          zip_map_fst ss.reverse obs.reverse (by simp [hlen])] at hs
        exact hmem s (List.mem_reverse.mp hs)
    · rw [← hpa, scoreOf_eq_fval m Hterm, ← fval_rpathVal m ss obs hne hlen]


/-- C1 amended — Viterbi float optimality and path admissibility: on a
non-terminal model with distinct state names, a non-empty observation
sequence whose trellis computation returns, and at least one state
sequence with a defined score, `viterbi_path` succeeds; the float it
returns is exactly the brute-force maximum of `score` over all
`|states|^L` state sequences, and the returned path is one of those
sequences and has a defined score bounded by that maximum.  (The
original claim — that the returned path itself attains the maximum — is
refuted by the counterexample: the backtracking loop ignores transition
probabilities, so the path's score can be strictly smaller.) -/
theorem viterbi_path_optimal_value (m : hmm) (obs : List String)
    (cols : List Column)
    (Hnodup : (stateNames m).Nodup)
    (Hterm : m.terminal_state = false)
    (Hobs : obs ≠ [])
    (Ht : trellis m obs = .ok cols)
    (Hex : ∃ ss ∈ allStateSeqs m obs.length, ∃ v, score m ss obs = .val v) :
    ∃ path p, viterbi_path m obs = .ok (path, some p) ∧
      bestScore m obs = some p ∧
      path ∈ allStateSeqs m obs.length ∧
      ∃ w, score m path obs = .val w ∧ w ≤ p := by
  obtain ⟨o1, rest, rfl⟩ : ∃ o1 rest, obs = o1 :: rest := by
    cases obs with
    | nil => exact absurd rfl Hobs
    | cons a b => exact ⟨a, b, rfl⟩
  have hcols := trellis_cols m Hterm Hnodup o1 rest cols Ht
  obtain ⟨oL, rl, hrl⟩ : ∃ oL rl, (o1 :: rest).reverse = oL :: rl := by
    cases hx : (o1 :: rest).reverse with
    | nil => exact absurd hx (by simp)
    | cons a b => exact ⟨a, b, rfl⟩
  have hlast : lastCol cols = some (colFor m ((o1 :: rest).reverse)) := by
    rw [hcols, specColsFrom_lastCol, List.reverse_cons]
  have hblr : butLastRev cols = colsBelow m rl := by
    have h := specColsFrom_butLastRev m rest [o1] (by simp)
    rw [show colsBelow m ([o1].tail) = [] from rfl, List.append_nil] at h
    rw [hcols, h, ← List.reverse_cons, hrl]
    rfl
  obtain ⟨ss0, hss0, v0, hsc0⟩ := Hex
  have hscore0 : scoreOf m (o1 :: rest) ss0 = some v0 := by rw [scoreOf, hsc0]
  obtain ⟨pv, hpv⟩ : ∃ pv, bestScore m (o1 :: rest) = some pv := by
    have hmemv : some v0 ∈ (allStateSeqs m (o1 :: rest).length).map
        (scoreOf m (o1 :: rest)) := List.mem_map.mpr ⟨ss0, hss0, hscore0⟩
    have hle : optLe (some v0) (bestScore m (o1 :: rest)) := by
      rw [bestScore]
      exact le_bestOver_of_mem _ _ hmemv
    exact optLe_some _ v0 hle
  have hcolbest : bestOver ((colFor m ((o1 :: rest).reverse)).map Prod.snd) =
      bestScore m (o1 :: rest) := by
    rw [hrl, colFor_bestOver m oL rl, ← hrl,
      rpaths_bestOver_eq_bestScore m Hterm (o1 :: rest) (by simp)]
  have hstates : m.states ≠ [] := by
    obtain ⟨hlen0, hmem0⟩ := (allStateSeqs_mem m _ ss0).mp hss0
    cases ss0 with
    | nil => exact absurd hlen0 (by simp)
    | cons s0 sst =>
      have hs0m := hmem0 s0 (by simp)
      rw [stateNames] at hs0m
      obtain ⟨q, hq, _⟩ := List.mem_map.mp hs0m
      intro hz
      rw [hz] at hq
      exact absurd hq (List.not_mem_nil _)
  obtain ⟨e0, ecol, hdec⟩ : ∃ e0 ecol,
      colFor m ((o1 :: rest).reverse) = e0 :: ecol := by
    rw [colFor]
    cases hms : m.states with
    | nil => exact absurd hms hstates
    | cons q qs => exact ⟨_, _, List.map_cons _ _ _⟩
  rcases hpbe : pickBest e0 ecol with ⟨next, cval⟩
  have hpm : pickMax (colFor m ((o1 :: rest).reverse)) = .ok (next, cval) := by
    rw [hdec, show pickMax (e0 :: ecol) = .ok (pickBest e0 ecol) from rfl, hpbe]
  obtain ⟨hpmem, hpval⟩ := pickMax_ok (e0 :: ecol) (next, cval)
    (by rw [show pickMax (e0 :: ecol) = .ok (pickBest e0 ecol) from rfl, hpbe])
  have hcval : cval = some pv := by
    have h5 : cval = bestOver ((colFor m ((o1 :: rest).reverse)).map Prod.snd) := by
      rw [hdec]
      exact hpval
    rw [h5, hcolbest, hpv]
  have hpcol : (next, cval) ∈ colFor m ((o1 :: rest).reverse) := by
    rw [hdec]
    exact hpmem
  obtain ⟨q, hq, hqe⟩ := List.mem_map.mp (by rw [colFor] at hpcol; exact hpcol)
  have hqn : q.1 = next := congrArg Prod.fst hqe
  have hnextmem : next ∈ stateNames m := by
    rw [stateNames]
    exact List.mem_map.mpr ⟨q, hq, hqn⟩
  have hcellnext : cellSpec m next (oL :: rl) = some pv := by
    have h6 : cellSpec m q.1 ((o1 :: rest).reverse) = cval := congrArg Prod.snd hqe
    rw [← hrl, ← hqn, h6, hcval]
  obtain ⟨res, w, hbl, hlenres, hrv, hrp⟩ :=
    backLoop_spec m rl oL next [next] pv hnextmem hcellnext
  have hvp : viterbi_path m (o1 :: rest) = .ok ((next :: res).reverse, some pv) := by
    rw [viterbi_path, Ht]
    dsimp only []
    rw [hlast]
    dsimp only []
    rw [hpm]
    dsimp only []
    rw [hblr, hbl]
    dsimp only []
    rw [hcval]
    rfl
  have hLrl : rl.length + 1 = (o1 :: rest).length := by
    have h7 := congrArg List.length hrl
    rw [List.length_reverse, show (oL :: rl).length = rl.length + 1 from rfl] at h7
    omega
  have hlenpath : (next :: res).length = (oL :: rl).length := by
    rw [show (next :: res).length = res.length + 1 from rfl, hlenres]
    rfl
  have hlenrev : ((next :: res).reverse).length = (o1 :: rest).length := by
    rw [List.length_reverse, show (next :: res).length = res.length + 1 from rfl,
      hlenres]
    exact hLrl
  have hnerev : (next :: res).reverse ≠ [] := by simp
  obtain ⟨hm1, hm2⟩ := (rpaths_mem m (oL :: rl) _).mp hrp
  have hfst : ((next :: res).zip (oL :: rl)).map Prod.fst = next :: res :=
    zip_map_fst _ _ hlenpath
  have hpathmem : (next :: res).reverse ∈ allStateSeqs m (o1 :: rest).length := by
    refine (allStateSeqs_mem m _ _).mpr ⟨hlenrev, ?_⟩
    intro s hs
    exact hm2 s (by rw [hfst]; exact List.mem_reverse.mp hs)
  have hzipr : (((next :: res).reverse).zip (o1 :: rest)).reverse =
      (next :: res).zip (oL :: rl) := by
    rw [← zip_reverse _ _ hlenrev, List.reverse_reverse, hrl]
  have hfv : fval m ((next :: res).reverse) (o1 :: rest) = some w := by
    rw [← fval_rpathVal m _ _ hnerev hlenrev, hzipr]
    exact hrv
  have hsw : score m ((next :: res).reverse) (o1 :: rest) = .val w :=
    (score_val_iff m Hterm _ _ w).mpr hfv
  have hwle : w ≤ pv := by
    have hmm2 : some w ∈ (rpaths m ((o1 :: rest).reverse)).map (rpathVal m) := by
      rw [hrl]
      exact List.mem_map.mpr ⟨_, hrp, hrv⟩
    have hle2 := le_bestOver_of_mem _ _ hmm2
    rw [rpaths_bestOver_eq_bestScore m Hterm (o1 :: rest) (by simp), hpv] at hle2
    exact hle2
  exact ⟨(next :: res).reverse, pv, hvp, hpv, hpathmem, w, hsw, hwle⟩

theorem mBack_score_QZ : score mBack ["Q", "Z"] ["x", "x"] = .val (36/100) := by
  rw [mBack_elim]
  simp [score, scoreBody, scoreRest, alookup, elemStr, stP, stQ, stZ, stW]
  all_goals (first | norm_num | skip)

theorem viterbi_path_optimal_value_witness :
    ∃ path p, viterbi_path mBack ["x", "x"] = .ok (path, some p) ∧
      bestScore mBack ["x", "x"] = some p ∧
      path ∈ allStateSeqs mBack (["x", "x"] : List String).length ∧
      ∃ w, score mBack path ["x", "x"] = .val w ∧ w ≤ p := by
  refine viterbi_path_optimal_value mBack ["x", "x"]
    [[("P", some (6/10)), ("Q", some (4/10)), ("Z", none), ("W", none)],
     [("P", none), ("Q", none), ("Z", some (36/100)), ("W", none)]]
    ?_ ?_ (by simp) mBack_trellis ?_
  · rw [mBack_elim]
    simp [stateNames]
  · rw [mBack_elim]
  · refine ⟨["Q", "Z"], ?_, 36/100, mBack_score_QZ⟩
    rw [mBack_elim]
    simp [allStateSeqs, stateNames]

end HMM
